import Mathlib

/-!
# Uptime watcher: state store, scheduler and target service

A shallow embedding of `internal/model/model.go`, `internal/store/store.go`,
`internal/scheduler/scheduler.go`, `internal/service/targets.go` and
`internal/config/config.go`.

* Go `string` is `String`, Go `int`, `time.Duration` and `time.Time` are `Int`
  (a `time.Time` is the number of nanoseconds since the zero instant, so that
  `IsZero` is equality with `0`); the only `int` arithmetic of the store, the
  increment of the failure counter, wraps at 64 bits.
* A Go `map[string]V` is a duplicate-free association list `GoMap V`.  The order
  of its entries plays the part of Go's unspecified iteration order.
* A Go slice is a `List`; a `nil` slice and an empty slice are both `[]`.
* A Go `float64` is the rational number it denotes; every operation rounds its
  exact result to 53 significant bits, ties to even (`roundF64`).
* The mutexes of the store and of the scheduler are not modelled: every method holds
  its mutex from its first to its last statement, so methods are state transformers.
* The goroutines of the scheduler are the entries of a list of loops, each with the
  cancellation flag of its context and the content of its trigger channel; a `*worker` is
  an index into that list.
* The repository is a database outside the model: what it answers is an argument of the
  methods of the service, which log the calls they make.
-/

namespace UptimeWatcher

/-! ## Go maps with string keys -/

/-- A Go `map[string]V`: an association list without duplicate keys. -/
structure GoMap (V : Type) where
  entries : List (String × V)
  nodup : (entries.map Prod.fst).Nodup
deriving DecidableEq

/-- Value stored under `k` in an association list, if any. -/
def lookupList {V : Type} (k : String) : List (String × V) → Option V
  | [] => none
  | e :: l => if e.1 = k then some e.2 else lookupList k l

/-- The entries of an association list whose key differs from `k`. -/
def eraseList {V : Type} (k : String) (l : List (String × V)) : List (String × V) :=
  l.filter (fun e => decide (e.1 ≠ k))

namespace GoMap

variable {V : Type}

/-- The map `make(map[string]V)`. -/
def empty : GoMap V := ⟨[], List.nodup_nil⟩

/-- The lookup `v, ok := m[k]`: `none` when `ok` is false. -/
def get? (m : GoMap V) (k : String) : Option V := lookupList k m.entries

/-- The statement `delete(m, k)`. -/
def delete (m : GoMap V) (k : String) : GoMap V :=
  ⟨eraseList k m.entries,
    m.nodup.sublist (List.Sublist.map Prod.fst (List.filter_sublist m.entries))⟩

/-- The assignment `m[k] = v`. -/
def set (m : GoMap V) (k : String) (v : V) : GoMap V :=
  ⟨(k, v) :: eraseList k m.entries,
    List.nodup_cons.2 ⟨by simp [eraseList],
      m.nodup.sublist (List.Sublist.map Prod.fst (List.filter_sublist m.entries))⟩⟩

end GoMap

/-! ## The data model (`model.go`) -/

deriving instance DecidableEq for Except

/-- The struct `model.Target`. -/
structure Target where
  ID : String
  Name : String
  Kind : String
  URL : String
  Host : String
  Port : Int
  Frequency : Int
  Timeout : Int
deriving DecidableEq

/-- The struct `model.CheckResult`. -/
structure CheckResult where
  TargetID : String
  CheckedAt : Int
  Duration : Int
  Success : Bool
  Message : String
  StatusCode : Int
deriving DecidableEq

/-- The struct `model.TargetStatus`; `LastCheck` is a nullable pointer. -/
structure TargetStatus where
  Target : Target
  LastCheck : Option CheckResult
  UptimePerc : ℚ
  ConsecutiveFailures : Int
deriving DecidableEq

/-- The zero value of `model.CheckResult`, which reading an absent map key yields. -/
def CheckResult.zero : CheckResult :=
  { TargetID := "", CheckedAt := 0, Duration := 0, Success := false, Message := "",
    StatusCode := 0 }

/-- The method `time.Time.IsZero`. -/
def timeIsZero (t : Int) : Bool := decide (t = 0)

/-! ## Machine arithmetic -/

/-- The value a 64-bit two's complement `int` holds after a computation whose exact
result is `x`. -/
def wrapInt (x : Int) : Int := (x + 2 ^ 63) % 2 ^ 64 - 2 ^ 63

/-- Nearest integer to `num / den`, ties to the even one. -/
def roundHalfEven (num den : Nat) : Nat :=
  let q := num / den
  let r := num % den
  if 2 * r < den then q
  else if den < 2 * r then q + 1
  else if q % 2 = 0 then q else q + 1

/-- The integer `e` with `2 ^ e ≤ p / q < 2 ^ (e + 1)`, for positive `p` and `q`. -/
def floorLog2 (p q : Nat) : Int :=
  let d : Int := (Nat.log2 p : Int) - (Nat.log2 q : Int)
  if q * 2 ^ d.toNat ≤ p * 2 ^ (-d).toNat then d else d - 1

/-- The `float64` nearest to the positive rational `p / q` (ties to even): the number is
scaled by the power of two that brings it into `[2 ^ 52, 2 ^ 53)`, rounded to an integer
and scaled back.  The exponent is not bounded; the store only produces values between
`2 ^ (-63)` and `2 ^ 63`, far from the overflow and subnormal thresholds of binary64. -/
def roundPos (p q : Nat) : ℚ :=
  let sh : Int := floorLog2 p q - 52
  (roundHalfEven (p * 2 ^ (-sh).toNat) (q * 2 ^ sh.toNat) : ℚ) * (2 : ℚ) ^ sh

/-- The `float64` nearest to the rational `x` (ties to even). -/
def roundF64 (x : ℚ) : ℚ :=
  if x = 0 then 0
  else (if x < 0 then -1 else 1) * roundPos x.num.natAbs x.den

/-- The conversion `float64(i)` of an `int`. -/
def f64ofInt (i : Int) : ℚ := roundF64 i

/-- The `float64` division `a / b`, for `b ≠ 0`. -/
def f64div (a b : ℚ) : ℚ := roundF64 (a / b)

/-- The `float64` multiplication `a * b`. -/
def f64mul (a b : ℚ) : ℚ := roundF64 (a * b)

/-! ## The store (`store.go`) -/

/-- The constant `historyLimit`. -/
def historyLimit : Nat := 100

/-- The struct `Store`, without its mutex. -/
structure Store where
  targets : GoMap Target
  last : GoMap CheckResult
  history : GoMap (List CheckResult)
  failures : GoMap Int
deriving DecidableEq

/-- The function `New`: a store holding the given targets, keyed by their id. -/
def New (targets : List Target) : Store :=
  { targets := targets.foldl (fun tmap t => tmap.set t.ID t) GoMap.empty
    last := GoMap.empty
    history := GoMap.empty
    failures := GoMap.empty }

/-- The call `sort.Slice(out, less)` where `less` compares the string `key` of two
elements with `<`.  Go leaves the order of elements with equal keys open; here it is
the order an insertion sort gives. -/
def sortSlice {α : Type} (key : α → String) (out : List α) : List α :=
  List.insertionSort (fun a b => (key a).toList < (key b).toList) out

/-- The function `calculateUptime`. -/
def calculateUptime (history : List CheckResult) : ℚ :=
  if history.length = 0 then 0
  else
    let successes : Int := history.foldl (fun n res => if res.Success then n + 1 else n) 0
    f64mul (f64div (f64ofInt successes) (f64ofInt history.length)) 100

namespace Store

/-- The method `Targets`. -/
def Targets (s : Store) : List Target :=
  sortSlice (fun t => t.ID) (s.targets.entries.map Prod.snd)

/-- The method `UpsertTarget`.  The three `nil` checks of the source are vacuous here:
a `GoMap` is never `nil`. -/
def UpsertTarget (s : Store) (target : Target) : Store :=
  { s with
    targets := s.targets.set target.ID target
    history :=
      match s.history.get? target.ID with
      | some _ => s.history
      | none => s.history.set target.ID [] }

/-- The method `RemoveTarget`. -/
def RemoveTarget (s : Store) (id : String) : Store :=
  { targets := s.targets.delete id
    last := s.last.delete id
    history := s.history.delete id
    failures := s.failures.delete id }

/-- The method `Update`. -/
def Update (s : Store) (result : CheckResult) : Store :=
  let h := result :: (s.history.get? result.TargetID).getD []
  let h := if h.length > historyLimit then h.take historyLimit else h
  { targets := s.targets
    last := s.last.set result.TargetID result
    history := s.history.set result.TargetID h
    failures :=
      if result.Success then s.failures.set result.TargetID 0
      else s.failures.set result.TargetID
        (wrapInt ((s.failures.get? result.TargetID).getD 0 + 1)) }

/-- The body of the loop of `Status`: the status of the target stored under `id`. -/
def statusOf (s : Store) (id : String) (target : Target) : TargetStatus :=
  let last := (s.last.get? id).getD CheckResult.zero
  let history := (s.history.get? id).getD []
  { Target := target
    UptimePerc := calculateUptime history
    ConsecutiveFailures := (s.failures.get? id).getD 0
    LastCheck := if timeIsZero last.CheckedAt then none else some last }

/-- The method `Status`. -/
def Status (s : Store) : List TargetStatus :=
  sortSlice (fun st => st.Target.ID) (s.targets.entries.map (fun e => statusOf s e.1 e.2))

/-- The method `History`; the error is its message. -/
def History (s : Store) (targetID : String) (limit : Int) :
    Except String (List CheckResult) :=
  match s.targets.get? targetID with
  | none => Except.error "target no encontrado"
  | some _ =>
    let h := (s.history.get? targetID).getD []
    let h := if limit > 0 ∧ limit < h.length then h.take limit.toNat else h
    Except.ok h

end Store


/-! ## Recording a probe (`scheduler.go`) -/

/-- What `Scheduler.execute` does to the store: `result` is what the runner returned and
`now` what `time.Now()` returns; a result without a timestamp is stamped, then recorded.
The log line is left out. -/
def Scheduler.execute (store : Store) (result : CheckResult) (now : Int) : Store :=
  let result := if timeIsZero result.CheckedAt then { result with CheckedAt := now } else result
  store.Update result

/-! ## Operation sequences and reachable states -/

/-- One mutating call on the store. -/
inductive Op where
  | upsert (target : Target)
  | remove (id : String)
  | update (result : CheckResult)
deriving DecidableEq

/-- The effect of one call. -/
def Store.step (s : Store) : Op → Store
  | Op.upsert target => s.UpsertTarget target
  | Op.remove id => s.RemoveTarget id
  | Op.update result => s.Update result

/-- The effect of a sequence of calls, first call first. -/
def Store.run (s : Store) (ops : List Op) : Store := ops.foldl Store.step s

/-- Whether the call is an `UpsertTarget` of a target with the given id. -/
def Op.upserts (id : String) : Op → Bool
  | Op.upsert target => decide (target.ID = id)
  | _ => false

/-- The states a store built by `New` can be in. -/
inductive Reachable : Store → Prop where
  | init (targets : List Target) : Reachable (New targets)
  | upsert {s : Store} (target : Target) : Reachable s → Reachable (s.UpsertTarget target)
  | remove {s : Store} (id : String) : Reachable s → Reachable (s.RemoveTarget id)
  | update {s : Store} (result : CheckResult) : Reachable s → Reachable (s.Update result)

/-- What every reachable state satisfies. -/
structure Inv (s : Store) : Prop where
  keyID : ∀ e ∈ s.targets.entries, e.2.ID = e.1
  histLen : ∀ id h, s.history.get? id = some h → h.length ≤ historyLimit
  lastHead : ∀ id, s.last.get? id = ((s.history.get? id).getD []).head?
  failNone : ∀ id, (s.history.get? id).getD [] = [] → s.failures.get? id = none
  failRange : ∀ id v, s.failures.get? id = some v → -(2 ^ 63) ≤ v ∧ v < 2 ^ 63

/-! ## The scheduler (`scheduler.go`) -/

/-- A polling loop: the goroutine `runWorker` that `spawnWorkerLocked` starts, together
with the cancellable context and the trigger channel made for it.  `cancelled` tells
whether the `cancel` function of the context was called, `pending` how many signals the
trigger channel buffers. -/
structure Loop where
  target : Target
  cancelled : Bool
  pending : Nat
deriving DecidableEq

/-- The struct `Scheduler`, without its mutex, wait group, runner, store and logger.
`started` tells whether `baseCtx` is set.  A `*worker` is the index in `loops` of the
loop whose trigger channel and `cancel` function it holds; `loops` lists every loop
spawned so far, oldest first. -/
structure Scheduler where
  started : Bool
  workers : GoMap Nat
  loops : List Loop
deriving DecidableEq

/-- The list `l` with `f` applied to its element of index `k`, if any. -/
def updateAt {α : Type} (f : α → α) : Nat → List α → List α
  | _, [] => []
  | 0, a :: l => f a :: l
  | k + 1, a :: l => a :: updateAt f k l

/-- The capacity of the channel `make(chan struct{}, 1)`. -/
def triggerCapacity : Nat := 1

/-- The call `cancel()` on the context of a loop. -/
def Loop.cancel (l : Loop) : Loop := { l with cancelled := true }

/-- The statement `select { case w.trigger <- struct{}{}: default: }`: the signal is
buffered when the channel has room and dropped otherwise. -/
def Loop.trySend (l : Loop) : Loop :=
  if l.pending < triggerCapacity then { l with pending := l.pending + 1 } else l

namespace Scheduler

/-- The function `scheduler.New`. -/
def New : Scheduler := { started := false, workers := GoMap.empty, loops := [] }

/-- The block `if w, ok := s.workers[id]; ok { w.cancel(); delete(s.workers, id) }` that
`UpsertTarget` and `RemoveTarget` share. -/
def cancelWorker (s : Scheduler) (id : String) : Scheduler :=
  match s.workers.get? id with
  | some k => { s with loops := updateAt Loop.cancel k s.loops, workers := s.workers.delete id }
  | none => s

/-- The method `spawnWorkerLocked`: a new loop with a fresh context and an empty trigger
channel is registered under the id of the target and started. -/
def spawnWorkerLocked (s : Scheduler) (target : Target) : Scheduler :=
  { s with
    workers := s.workers.set target.ID s.loops.length
    loops := s.loops ++ [{ target := target, cancelled := false, pending := 0 }] }

/-- The method `UpsertTarget`. -/
def UpsertTarget (s : Scheduler) (target : Target) : Scheduler :=
  let s := s.cancelWorker target.ID
  if s.started = false then s else s.spawnWorkerLocked target

/-- The method `RemoveTarget`. -/
def RemoveTarget (s : Scheduler) (targetID : String) : Scheduler :=
  s.cancelWorker targetID

/-- The method `Start`, given the store of the scheduler. -/
def Start (s : Scheduler) (store : Store) : Scheduler :=
  store.Targets.foldl UpsertTarget { s with started := true }

/-- The method `Trigger`: its result and the state it leaves. -/
def Trigger (s : Scheduler) (targetID : String) : Bool × Scheduler :=
  match s.workers.get? targetID with
  | none => (false, s)
  | some k => (true, { s with loops := updateAt Loop.trySend k s.loops })

/-- The branch `case <-trigger` of the `select` of `runWorker`, for the loop of index `k`:
when the channel buffers a signal the loop takes it and runs `execute`.  The result tells
whether it did. -/
def receiveTrigger (s : Scheduler) (k : Nat) : Bool × Scheduler :=
  match s.loops[k]? with
  | none => (false, s)
  | some l =>
    if 0 < l.pending then
      (true, { s with loops := updateAt (fun x => { x with pending := x.pending - 1 }) k s.loops })
    else (false, s)

end Scheduler

/-- One step of the scheduler: a call of one of its methods or a loop taking a trigger. -/
inductive SchedOp where
  | start (store : Store)
  | upsert (target : Target)
  | remove (id : String)
  | trigger (id : String)
  | receive (k : Nat)
deriving DecidableEq

/-- The effect of one step of the scheduler. -/
def Scheduler.step (s : Scheduler) : SchedOp → Scheduler
  | SchedOp.start store => s.Start store
  | SchedOp.upsert target => s.UpsertTarget target
  | SchedOp.remove id => s.RemoveTarget id
  | SchedOp.trigger id => (s.Trigger id).2
  | SchedOp.receive k => (s.receiveTrigger k).2

/-- The states a scheduler built by `scheduler.New` can be in. -/
inductive Scheduler.Reachable : Scheduler → Prop where
  | init : Scheduler.Reachable Scheduler.New
  | step {s : Scheduler} (op : SchedOp) : Scheduler.Reachable s → Scheduler.Reachable (s.step op)

/-- The loop of index `k` was spawned for `id` and its context is not cancelled. -/
def Scheduler.liveFor (s : Scheduler) (id : String) (k : Nat) : Prop :=
  ∃ l, s.loops[k]? = some l ∧ l.cancelled = false ∧ l.target.ID = id

/-- What every reachable state of the scheduler satisfies. -/
structure Scheduler.Inv (s : Scheduler) : Prop where
  registered : ∀ id k, s.workers.get? id = some k → s.liveFor id k
  live : ∀ id k, s.liveFor id k → s.workers.get? id = some k
  capacity : ∀ l ∈ s.loops, l.pending ≤ triggerCapacity
  idle : s.started = false → s.workers.entries = []

/-! ## The target service (`service/targets.go`) -/

/-- The constants `model.TargetHTTP` and `model.TargetTCP`. -/
def TargetHTTP : String := "http"

/-- The constant `model.TargetTCP`. -/
def TargetTCP : String := "tcp"

/-- The function `validateTarget`: `none` is the `nil` error. -/
def validateTarget (target : Target) : Option String :=
  if target.Name = "" then some "nombre requerido"
  else
    let kindError : Option String :=
      if target.Kind = TargetHTTP then
        if target.URL = "" then some "url requerida para targets http" else none
      else if target.Kind = TargetTCP then
        if target.Host = "" ∨ target.Port = 0 then some "host y port requeridos para targets tcp"
        else none
      else some ("tipo de target desconocido: " ++ target.Kind)
    match kindError with
    | some err => some err
    | none =>
      if target.Frequency ≤ 0 then some "frequency debe ser mayor a 0"
      else if target.Timeout ≤ 0 then some "timeout debe ser mayor a 0"
      else if target.Timeout > target.Frequency then
        some "timeout no puede ser mayor que frequency"
      else none

/-- A call the service makes on one of its three collaborators. -/
inductive Call where
  | repoList
  | repoCreate (target : Target)
  | repoUpdate (target : Target)
  | repoDelete (id : String)
  | storeUpsert (target : Target)
  | storeRemove (id : String)
  | schedulerUpsert (target : Target)
  | schedulerRemove (id : String)
  | schedulerTrigger (id : String)
deriving DecidableEq

/-- The struct `TargetService` with the state of the store and of the scheduler it points
to.  The repository is a database outside the model: what it answers is an argument of
each method, and `calls` records, oldest first, the calls made on the three
collaborators. -/
structure TargetService where
  store : Store
  scheduler : Scheduler
  calls : List Call
deriving DecidableEq

namespace TargetService

/-- The method `Bootstrap`; `listed` is what `repo.List` answers. -/
def Bootstrap (s : TargetService) (listed : Except String (List Target)) :
    Option String × TargetService :=
  let s := { s with calls := s.calls ++ [Call.repoList] }
  match listed with
  | Except.error err => (some err, s)
  | Except.ok targets =>
    (none, { s with
      store := targets.foldl Store.UpsertTarget s.store
      calls := s.calls ++ targets.map Call.storeUpsert })

/-- The method `CreateTarget`; `uuid` is what `uuid.NewString()` returns and `repoErr`
the error `repo.Create` answers. -/
def CreateTarget (s : TargetService) (target : Target) (uuid : String)
    (repoErr : Option String) : Except String Target × TargetService :=
  let target := if target.ID = "" then { target with ID := uuid } else target
  match validateTarget target with
  | some err => (Except.error err, s)
  | none =>
    match repoErr with
    | some err => (Except.error err, { s with calls := s.calls ++ [Call.repoCreate target] })
    | none =>
      (Except.ok target,
        { store := s.store.UpsertTarget target
          scheduler := s.scheduler.UpsertTarget target
          calls := s.calls ++ [Call.repoCreate target, Call.storeUpsert target,
            Call.schedulerUpsert target] })

/-- The method `UpdateTarget`; `repoErr` is the error `repo.Update` answers. -/
def UpdateTarget (s : TargetService) (target : Target) (repoErr : Option String) :
    Except String Target × TargetService :=
  if target.ID = "" then (Except.error "id requerido", s)
  else
    match validateTarget target with
    | some err => (Except.error err, s)
    | none =>
      match repoErr with
      | some err => (Except.error err, { s with calls := s.calls ++ [Call.repoUpdate target] })
      | none =>
        (Except.ok target,
          { store := s.store.UpsertTarget target
            scheduler := s.scheduler.UpsertTarget target
            calls := s.calls ++ [Call.repoUpdate target, Call.storeUpsert target,
              Call.schedulerUpsert target] })

/-- The method `DeleteTarget`; `repoErr` is the error `repo.Delete` answers. -/
def DeleteTarget (s : TargetService) (id : String) (repoErr : Option String) :
    Option String × TargetService :=
  if id = "" then (some "id requerido", s)
  else
    match repoErr with
    | some err => (some err, { s with calls := s.calls ++ [Call.repoDelete id] })
    | none =>
      (none,
        { store := s.store.RemoveTarget id
          scheduler := s.scheduler.RemoveTarget id
          calls := s.calls ++ [Call.repoDelete id, Call.schedulerRemove id,
            Call.storeRemove id] })

/-- The method `Trigger`. -/
def Trigger (s : TargetService) (id : String) : Bool × TargetService :=
  ((s.scheduler.Trigger id).1,
    { s with
      scheduler := (s.scheduler.Trigger id).2
      calls := s.calls ++ [Call.schedulerTrigger id] })

/-- The call `sched.Start(ctx)` of `main`, on the scheduler of the service. -/
def startScheduler (s : TargetService) : TargetService :=
  { s with scheduler := s.scheduler.Start s.store }

end TargetService

/-- What can happen in the running system once it is bootstrapped: an administrative
call with what the repository answers to it, a forced check, a loop taking a trigger, and
a loop recording the result of a probe at instant `now`. -/
inductive AdminOp where
  | create (target : Target) (uuid : String) (repoErr : Option String)
  | update (target : Target) (repoErr : Option String)
  | delete (id : String) (repoErr : Option String)
  | trigger (id : String)
  | receive (k : Nat)
  | probe (result : CheckResult) (now : Int)
deriving DecidableEq

/-- The effect of one event on the system. -/
def TargetService.apply (s : TargetService) : AdminOp → TargetService
  | AdminOp.create target uuid repoErr => (s.CreateTarget target uuid repoErr).2
  | AdminOp.update target repoErr => (s.UpdateTarget target repoErr).2
  | AdminOp.delete id repoErr => (s.DeleteTarget id repoErr).2
  | AdminOp.trigger id => (s.Trigger id).2
  | AdminOp.receive k => { s with scheduler := (s.scheduler.receiveTrigger k).2 }
  | AdminOp.probe result now => { s with store := Scheduler.execute s.store result now }

/-- The state after `n` calls of `Trigger id` in a row. -/
def Scheduler.triggerTimes (s : Scheduler) (id : String) : Nat → Scheduler
  | 0 => s
  | n + 1 => ((s.triggerTimes id n).Trigger id).2

/-- The effect of a sequence of events on the system, first event first. -/
def TargetService.run (s : TargetService) (ops : List AdminOp) : TargetService :=
  ops.foldl TargetService.apply s

/-- The service as `main` builds it around a store: a new scheduler, nothing called. -/
def TargetService.fresh (store : Store) : TargetService :=
  { store := store, scheduler := Scheduler.New, calls := [] }

/-- The system once `main` has called `Bootstrap` and the events `pre` have happened,
`Start` not being called yet. -/
def TargetService.beforeStart (store : Store) (listed : Except String (List Target))
    (pre : List AdminOp) : TargetService :=
  ((TargetService.fresh store).Bootstrap listed).2.run pre

/-- The system once `Start` was called after the events `pre` and the events `post`
have happened since. -/
def TargetService.afterStart (store : Store) (listed : Except String (List Target))
    (pre post : List AdminOp) : TargetService :=
  (TargetService.beforeStart store listed pre).startScheduler.run post

/-! ## The seed file (`config/config.go`) -/

/-- The struct `rawTarget`; a `Duration` is a number of nanoseconds. -/
structure rawTarget where
  ID : String
  Name : String
  Kind : String
  URL : String
  Host : String
  Port : Int
  Frequency : Int
  Timeout : Int
deriving DecidableEq

/-- The constant `time.Second`, in nanoseconds. -/
def Second : Int := 1000000000

/-- The function `strings.ToLower` on the letters `A` to `Z`.  The letters of `http` and
`tcp` are the lower case of no other character, so the kinds that `mapTarget` accepts do
not depend on how the other characters are mapped. -/
def toLower (s : String) : String := String.mk (s.toList.map Char.toLower)

/-- The function `mapTarget`.  The errors carry the text of the source without the quoted
id that `fmt.Errorf` inserts. -/
def mapTarget (raw : rawTarget) : Except String Target :=
  if raw.ID = "" then Except.error "target sin id"
  else
    let name := if raw.Name = "" then raw.ID else raw.Name
    if raw.Kind = "" then Except.error "target sin kind"
    else
      let kind := toLower raw.Kind
      let kindError : Option String :=
        if kind = TargetHTTP then
          if raw.URL = "" then some "target requiere url" else none
        else if kind = TargetTCP then
          if raw.Host = "" ∨ raw.Port = 0 then some "target requiere host y port" else none
        else some "target tiene kind desconocido"
      match kindError with
      | some err => Except.error err
      | none =>
        let freq := if raw.Frequency ≤ 0 then 30 * Second else raw.Frequency
        let timeout := if raw.Timeout ≤ 0 then 5 * Second else raw.Timeout
        Except.ok
          { ID := raw.ID, Name := name, Kind := kind, URL := raw.URL, Host := raw.Host,
            Port := raw.Port, Frequency := freq, Timeout := timeout }

/-- The loop of `Load` over the decoded targets: the first error aborts. -/
def loadTargets : List rawTarget → Except String (List Target)
  | [] => Except.ok []
  | raw :: rest =>
    match mapTarget raw with
    | Except.error err => Except.error err
    | Except.ok m =>
      match loadTargets rest with
      | Except.error err => Except.error err
      | Except.ok ms => Except.ok (m :: ms)

/-! ## A store whose maps may be `nil` -/

/-- The struct `Store` as Go lays it out: each of its four maps may be `nil` (`none`), as
in the zero value `Store{}`; a store built by `New` has four maps. -/
structure RawStore where
  targets : Option (GoMap Target)
  last : Option (GoMap CheckResult)
  history : Option (GoMap (List CheckResult))
  failures : Option (GoMap Int)
deriving DecidableEq

/-- The read `m[k]` of a map that may be `nil`: a `nil` map has no key. -/
def readMap {V : Type} (m : Option (GoMap V)) (k : String) : Option V :=
  match m with
  | none => none
  | some m => m.get? k

/-- The assignment `m[k] = v` on a map that may be `nil`: on a `nil` map it is the
runtime panic `assignment to entry in nil map`, here `none`. -/
def writeMap {V : Type} (m : Option (GoMap V)) (k : String) (v : V) : Option (GoMap V) :=
  match m with
  | none => none
  | some m => some (m.set k v)

namespace RawStore

/-- The zero value `Store{}`. -/
def zero : RawStore := { targets := none, last := none, history := none, failures := none }

/-- A store with four maps. -/
def ofStore (s : Store) : RawStore :=
  { targets := some s.targets, last := some s.last, history := some s.history,
    failures := some s.failures }

/-- The method `UpsertTarget` with its three `nil` checks; the maps it writes to are the
ones it has just made, so it cannot panic. -/
def UpsertTarget (s : RawStore) (target : Target) : RawStore :=
  let targets := match s.targets with
    | none => GoMap.empty
    | some m => m
  let history := match s.history with
    | none => GoMap.empty
    | some m => m
  let failures := match s.failures with
    | none => GoMap.empty
    | some m => m
  { targets := some (targets.set target.ID target)
    last := s.last
    history :=
      match history.get? target.ID with
      | some _ => some history
      | none => some (history.set target.ID [])
    failures := some failures }

/-- The method `Update`, statement by statement; `none` is a runtime panic. -/
def Update (s : RawStore) (result : CheckResult) : Option RawStore :=
  match writeMap s.last result.TargetID result with
  | none => none
  | some last =>
    let h := result :: (readMap s.history result.TargetID).getD []
    let h := if h.length > historyLimit then h.take historyLimit else h
    match writeMap s.history result.TargetID h with
    | none => none
    | some history =>
      let count : Int :=
        if result.Success then 0
        else wrapInt ((readMap s.failures result.TargetID).getD 0 + 1)
      match writeMap s.failures result.TargetID count with
      | none => none
      | some failures =>
        some { targets := s.targets, last := some last, history := some history,
               failures := some failures }

end RawStore

/-! ## The failure counters while they cannot wrap -/

/-- What holds of the failure counters as long as fewer than `2 ^ 63` calls were made: a
counter is between 0 and the number of calls, and it is 0 exactly when the last result
of its id is absent or a success. -/
structure Streak (n : Nat) (s : Store) : Prop where
  range : ∀ id v, s.failures.get? id = some v → 0 ≤ v ∧ v ≤ (n : Int)
  zero : ∀ id, (s.failures.get? id).getD 0 = 0 ↔
    (s.last.get? id = none ∨ ∃ r, s.last.get? id = some r ∧ r.Success = true)

/-! ## Sample data -/

/-- A seed entry that asks for a check every second and gives no timeout. -/
def rawFast : rawTarget :=
  { ID := "fast", Name := "", Kind := "HTTP", URL := "http://x/health", Host := "", Port := 0,
    Frequency := 1000000000, Timeout := 0 }

/-- What `mapTarget` makes of `rawFast`. -/
def fast : Target :=
  { ID := "fast", Name := "fast", Kind := "http", URL := "http://x/health", Host := "",
    Port := 0, Frequency := 1000000000, Timeout := 5000000000 }


/-- An HTTP target with id `svc1`, polled every 30 s with a 5 s timeout. -/
def svc1 : Target :=
  { ID := "svc1", Name := "service one", Kind := "http", URL := "http://x/health", Host := "",
    Port := 0, Frequency := 30000000000, Timeout := 5000000000 }

/-- A TCP target with id `svc2`. -/
def svc2 : Target :=
  { ID := "svc2", Name := "service two", Kind := "tcp", URL := "", Host := "db", Port := 5432,
    Frequency := 60000000000, Timeout := 1000000000 }

/-- A successful probe of `id` completed at instant `t`. -/
def okAt (id : String) (t : Int) : CheckResult :=
  { TargetID := id, CheckedAt := t, Duration := 1000000, Success := true, Message := "200 OK",
    StatusCode := 200 }

/-- A failed probe of `id` completed at instant `t`. -/
def failAt (id : String) (t : Int) : CheckResult :=
  { TargetID := id, CheckedAt := t, Duration := 1000000, Success := false,
    Message := "error HTTP", StatusCode := 0 }

/-! ## Lemmas on maps -/

section MapLemmas

variable {V : Type}

theorem lookupList_eraseList_self (k : String) (l : List (String × V)) :
    lookupList k (eraseList k l) = none := by
  induction l with
  | nil => rfl
  | cons e l ih =>
    by_cases h : e.1 = k
    · simpa [eraseList, h] using ih
    · simpa [eraseList, h, lookupList] using ih

theorem lookupList_eraseList_ne {k j : String} (h : j ≠ k) (l : List (String × V)) :
    lookupList j (eraseList k l) = lookupList j l := by
  induction l with
  | nil => rfl
  | cons e l ih =>
    have ih' : lookupList j (List.filter (fun e => decide (e.1 ≠ k)) l) = lookupList j l := ih
    by_cases hk : e.1 = k
    · have hj : e.1 ≠ j := fun hj => h (hj.symm.trans hk)
      rw [eraseList, List.filter_cons_of_neg (by simpa using hk), ih']
      simp [lookupList, hj]
    · rw [eraseList, List.filter_cons_of_pos (by simpa using hk)]
      simp only [lookupList, ih']

theorem lookupList_eq_none_iff (k : String) (l : List (String × V)) :
    lookupList k l = none ↔ ∀ e ∈ l, e.1 ≠ k := by
  induction l with
  | nil => simp [lookupList]
  | cons e l ih =>
    by_cases h : e.1 = k
    · simp [lookupList, h]
    · simp [lookupList, h, ih]

theorem mem_of_lookupList {k : String} {v : V} {l : List (String × V)}
    (h : lookupList k l = some v) : (k, v) ∈ l := by
  induction l with
  | nil => simp [lookupList] at h
  | cons e l ih =>
    by_cases hk : e.1 = k
    · simp [lookupList, hk] at h
      subst hk; subst h
      simp
    · simp [lookupList, hk] at h
      exact List.mem_cons_of_mem _ (ih h)

theorem lookupList_of_mem {k : String} {v : V} {l : List (String × V)}
    (hl : (l.map Prod.fst).Nodup) (h : (k, v) ∈ l) : lookupList k l = some v := by
  induction l with
  | nil => simp at h
  | cons e l ih =>
    simp only [List.map_cons, List.nodup_cons] at hl
    rcases List.mem_cons.1 h with h | h
    · subst h
      simp [lookupList]
    · have hk : e.1 ≠ k := by
        intro hk
        exact hl.1 (hk ▸ List.mem_map_of_mem Prod.fst h)
      simpa [lookupList, hk] using ih hl.2 h

theorem eraseList_eq_self {k : String} {l : List (String × V)}
    (h : lookupList k l = none) : eraseList k l = l := by
  rw [lookupList_eq_none_iff] at h
  exact List.filter_eq_self.2 (fun e he => by simpa using h e he)

theorem eraseList_eraseList (k : String) (l : List (String × V)) :
    eraseList k (eraseList k l) = eraseList k l :=
  eraseList_eq_self (lookupList_eraseList_self k l)

namespace GoMap

theorem ext_entries {m m' : GoMap V} (h : m.entries = m'.entries) : m = m' := by
  cases m; cases m'; cases h; rfl

@[simp] theorem get?_empty (k : String) : (empty : GoMap V).get? k = none := rfl

@[simp] theorem get?_set_self (m : GoMap V) (k : String) (v : V) :
    (m.set k v).get? k = some v := by
  simp [get?, set, lookupList]

theorem get?_set_ne (m : GoMap V) {k j : String} (v : V) (h : j ≠ k) :
    (m.set k v).get? j = m.get? j := by
  have hk : ¬ k = j := fun hk => h hk.symm
  simp [get?, set, lookupList, hk, lookupList_eraseList_ne h]

@[simp] theorem get?_delete_self (m : GoMap V) (k : String) : (m.delete k).get? k = none :=
  lookupList_eraseList_self k m.entries

theorem get?_delete_ne (m : GoMap V) {k j : String} (h : j ≠ k) :
    (m.delete k).get? j = m.get? j :=
  lookupList_eraseList_ne h m.entries

theorem mem_entries_iff (m : GoMap V) (k : String) (v : V) :
    (k, v) ∈ m.entries ↔ m.get? k = some v :=
  ⟨lookupList_of_mem m.nodup, mem_of_lookupList⟩

theorem get?_eq_none_iff (m : GoMap V) (k : String) :
    m.get? k = none ↔ ∀ e ∈ m.entries, e.1 ≠ k :=
  lookupList_eq_none_iff k m.entries

theorem delete_eq_self {m : GoMap V} {k : String} (h : m.get? k = none) : m.delete k = m :=
  ext_entries (eraseList_eq_self h)

theorem delete_delete (m : GoMap V) (k : String) : (m.delete k).delete k = m.delete k :=
  ext_entries (eraseList_eraseList k m.entries)

theorem set_set (m : GoMap V) (k : String) (v w : V) : (m.set k v).set k w = m.set k w := by
  apply ext_entries
  simp [set, eraseList, List.filter_filter]

end GoMap

end MapLemmas

/-! ## Lemmas on the operations of the store -/

section StoreLemmas

theorem take_cons_take (n : Nat) (r : CheckResult) (h : List CheckResult) (hn : 0 < n) :
    (r :: h.take n).take n = (r :: h).take n := by
  obtain ⟨m, rfl⟩ := Nat.exists_eq_succ_of_ne_zero (Nat.pos_iff_ne_zero.1 hn)
  simp [List.take_take]

/-- The history `Update` stores: the result in front of the old history, cut to
`historyLimit` entries. -/
theorem Store.Update_history_self (s : Store) (r : CheckResult) :
    (s.Update r).history.get? r.TargetID
      = some ((r :: (s.history.get? r.TargetID).getD []).take historyLimit) := by
  unfold Store.Update
  simp only [GoMap.get?_set_self]
  split
  · rfl
  · rename_i h
    rw [List.take_of_length_le (Nat.le_of_not_lt h)]

theorem Store.Update_history_ne (s : Store) (r : CheckResult) {id : String}
    (h : id ≠ r.TargetID) : (s.Update r).history.get? id = s.history.get? id := by
  unfold Store.Update
  exact GoMap.get?_set_ne _ _ h

@[simp] theorem Store.Update_targets (s : Store) (r : CheckResult) :
    (s.Update r).targets = s.targets := rfl

@[simp] theorem Store.Update_last_self (s : Store) (r : CheckResult) :
    (s.Update r).last.get? r.TargetID = some r := by
  simp [Store.Update]

theorem Store.Update_last_ne (s : Store) (r : CheckResult) {id : String}
    (h : id ≠ r.TargetID) : (s.Update r).last.get? id = s.last.get? id := by
  unfold Store.Update
  exact GoMap.get?_set_ne _ _ h

theorem Store.Update_failures_self (s : Store) (r : CheckResult) :
    (s.Update r).failures.get? r.TargetID
      = some (if r.Success then 0 else wrapInt ((s.failures.get? r.TargetID).getD 0 + 1)) := by
  unfold Store.Update
  by_cases h : r.Success <;> simp [h]

theorem Store.Update_failures_ne (s : Store) (r : CheckResult) {id : String}
    (h : id ≠ r.TargetID) : (s.Update r).failures.get? id = s.failures.get? id := by
  unfold Store.Update
  by_cases hs : r.Success <;> simp [hs, GoMap.get?_set_ne _ _ h]

@[simp] theorem Store.UpsertTarget_targets (s : Store) (t : Target) :
    (s.UpsertTarget t).targets = s.targets.set t.ID t := rfl

@[simp] theorem Store.UpsertTarget_last (s : Store) (t : Target) :
    (s.UpsertTarget t).last = s.last := rfl

@[simp] theorem Store.UpsertTarget_failures (s : Store) (t : Target) :
    (s.UpsertTarget t).failures = s.failures := rfl

/-- Reading a history with the default of an absent key is not affected by
`UpsertTarget`. -/
theorem Store.UpsertTarget_history_getD (s : Store) (t : Target) (id : String) :
    ((s.UpsertTarget t).history.get? id).getD [] = (s.history.get? id).getD [] := by
  unfold Store.UpsertTarget
  cases hh : s.history.get? t.ID with
  | some h => rfl
  | none =>
    by_cases hid : id = t.ID
    · subst hid
      simp [hh]
    · simp [GoMap.get?_set_ne _ _ hid]

theorem Store.UpsertTarget_history_some (s : Store) (t : Target) (id : String)
    (h : List CheckResult) (hh : (s.UpsertTarget t).history.get? id = some h) :
    s.history.get? id = some h ∨ h = [] := by
  unfold Store.UpsertTarget at hh
  cases hs : s.history.get? t.ID with
  | some h' =>
    simp only [hs] at hh
    exact Or.inl hh
  | none =>
    simp only [hs] at hh
    by_cases hid : id = t.ID
    · subst hid
      simp at hh
      exact Or.inr hh
    · rw [GoMap.get?_set_ne _ _ hid] at hh
      exact Or.inl hh

end StoreLemmas

/-! ## Invariants of reachable states -/

theorem wrapInt_range (x : Int) : -(2 ^ 63) ≤ wrapInt x ∧ wrapInt x < 2 ^ 63 := by
  unfold wrapInt
  norm_num
  omega

theorem wrapInt_of_range {x : Int} (h1 : -(2 ^ 63) ≤ x) (h2 : x < 2 ^ 63) : wrapInt x = x := by
  unfold wrapInt
  norm_num at h1 h2 ⊢
  omega

theorem New_keyID (targets : List Target) (m : GoMap Target)
    (hm : ∀ e ∈ m.entries, e.2.ID = e.1) :
    ∀ e ∈ (targets.foldl (fun tmap t => tmap.set t.ID t) m).entries, e.2.ID = e.1 := by
  induction targets generalizing m with
  | nil => exact hm
  | cons t ts ih =>
    apply ih
    intro e he
    simp only [GoMap.set, List.mem_cons, eraseList, List.mem_filter] at he
    rcases he with rfl | ⟨he, _⟩
    · rfl
    · exact hm e he

theorem Inv.init (targets : List Target) : Inv (New targets) where
  keyID := New_keyID targets GoMap.empty (by simp [GoMap.empty])
  histLen := by intro id h hh; simp [New] at hh
  lastHead := by intro id; simp [New]
  failNone := by intro id _; simp [New]
  failRange := by intro id v hv; simp [New] at hv

theorem Inv.upsert {s : Store} (hs : Inv s) (t : Target) : Inv (s.UpsertTarget t) where
  keyID := by
    intro e he
    simp only [Store.UpsertTarget_targets, GoMap.set, List.mem_cons, eraseList,
      List.mem_filter] at he
    rcases he with rfl | ⟨he, _⟩
    · rfl
    · exact hs.keyID e he
  histLen := by
    intro id h hh
    rcases Store.UpsertTarget_history_some s t id h hh with h1 | h1
    · exact hs.histLen id h h1
    · simp [h1]
  lastHead := by
    intro id
    rw [Store.UpsertTarget_history_getD, Store.UpsertTarget_last]
    exact hs.lastHead id
  failNone := by
    intro id hid
    rw [Store.UpsertTarget_history_getD] at hid
    exact hs.failNone id hid
  failRange := hs.failRange

theorem Inv.remove {s : Store} (hs : Inv s) (k : String) : Inv (s.RemoveTarget k) where
  keyID := by
    intro e he
    simp only [Store.RemoveTarget, GoMap.delete, eraseList, List.mem_filter] at he
    exact hs.keyID e he.1
  histLen := by
    intro id h hh
    by_cases hid : id = k
    · subst hid
      simp [Store.RemoveTarget] at hh
    · simp only [Store.RemoveTarget, GoMap.get?_delete_ne _ hid] at hh
      exact hs.histLen id h hh
  lastHead := by
    intro id
    by_cases hid : id = k
    · subst hid
      simp [Store.RemoveTarget]
    · simp only [Store.RemoveTarget, GoMap.get?_delete_ne _ hid]
      exact hs.lastHead id
  failNone := by
    intro id h
    by_cases hid : id = k
    · subst hid
      simp [Store.RemoveTarget]
    · simp only [Store.RemoveTarget, GoMap.get?_delete_ne _ hid] at h ⊢
      exact hs.failNone id h
  failRange := by
    intro id v hv
    by_cases hid : id = k
    · subst hid
      simp [Store.RemoveTarget] at hv
    · simp only [Store.RemoveTarget, GoMap.get?_delete_ne _ hid] at hv
      exact hs.failRange id v hv

theorem Inv.update {s : Store} (hs : Inv s) (r : CheckResult) : Inv (s.Update r) where
  keyID := hs.keyID
  histLen := by
    intro id h hh
    by_cases hid : id = r.TargetID
    · subst hid
      rw [Store.Update_history_self] at hh
      cases hh
      exact List.length_take_le _ _
    · rw [Store.Update_history_ne s r hid] at hh
      exact hs.histLen id h hh
  lastHead := by
    intro id
    by_cases hid : id = r.TargetID
    · subst hid
      rw [Store.Update_history_self, Store.Update_last_self]
      simp [historyLimit]
    · rw [Store.Update_history_ne s r hid, Store.Update_last_ne s r hid]
      exact hs.lastHead id
  failNone := by
    intro id h
    by_cases hid : id = r.TargetID
    · subst hid
      rw [Store.Update_history_self] at h
      simp [historyLimit] at h
    · rw [Store.Update_history_ne s r hid] at h
      rw [Store.Update_failures_ne s r hid]
      exact hs.failNone id h
  failRange := by
    intro id v hv
    by_cases hid : id = r.TargetID
    · subst hid
      rw [Store.Update_failures_self] at hv
      cases hv
      split
      · norm_num
      · exact wrapInt_range _
    · rw [Store.Update_failures_ne s r hid] at hv
      exact hs.failRange id v hv

theorem Reachable.inv {s : Store} (hs : Reachable s) : Inv s := by
  induction hs with
  | init targets => exact Inv.init targets
  | upsert t _ ih => exact ih.upsert t
  | remove k _ ih => exact ih.remove k
  | update r _ ih => exact ih.update r

theorem Reachable.run {s : Store} (hs : Reachable s) (ops : List Op) : Reachable (s.run ops) := by
  induction ops generalizing s with
  | nil => exact hs
  | cons op ops ih =>
    apply ih
    cases op with
    | upsert t => exact Reachable.upsert t hs
    | remove k => exact Reachable.remove k hs
    | update r => exact Reachable.update r hs

/-! ## The bounded history -/

theorem Store.foldl_Update_targets (rs : List CheckResult) (s : Store) :
    (rs.foldl Store.Update s).targets = s.targets := by
  induction rs generalizing s with
  | nil => rfl
  | cons r rs ih => simp [List.foldl_cons, ih]

/-- Recording `rs` for `id` on top of the already recorded `pre`. -/
theorem Store.foldl_Update_history (id : String) (rs : List CheckResult)
    (hrs : ∀ r ∈ rs, r.TargetID = id) (pre : List CheckResult) (s : Store)
    (hpre : (s.history.get? id).getD [] = pre.reverse.take historyLimit) :
    ((rs.foldl Store.Update s).history.get? id).getD []
      = (pre ++ rs).reverse.take historyLimit := by
  induction rs generalizing s pre with
  | nil => simpa using hpre
  | cons r rs ih =>
    have hr : r.TargetID = id := hrs r (List.mem_cons_self r rs)
    have step : (((s.Update r).history.get? id).getD [])
        = (pre ++ [r]).reverse.take historyLimit := by
      subst hr
      rw [Store.Update_history_self, hpre, Option.getD_some,
        take_cons_take _ _ _ (by decide)]
      simp
    have := ih (fun x hx => hrs x (List.mem_cons_of_mem r hx)) (pre ++ [r]) (s.Update r) step
    simpa [List.foldl_cons] using this

theorem take_reverse_eq_reverse_drop (n : Nat) (rs : List CheckResult) :
    rs.reverse.take n = (rs.drop (rs.length - n)).reverse :=
  List.take_reverse

/-- C1: in every state reachable from `New` by `UpsertTarget`, `RemoveTarget` and
`Update`, the history held for any id has at most 100 entries, and `History` returns at
most 100 results, whatever the id and the limit. -/
theorem history_bounded (s : Store) (hs : Reachable s) (id : String) :
    (∀ h, s.history.get? id = some h → h.length ≤ 100) ∧
      (∀ limit out, s.History id limit = Except.ok out → out.length ≤ 100) := by
  have hlen : ∀ h, s.history.get? id = some h → h.length ≤ 100 := hs.inv.histLen id
  refine ⟨hlen, ?_⟩
  intro limit out hout
  have hD : ((s.history.get? id).getD []).length ≤ 100 := by
    cases hh : s.history.get? id with
    | none => simp
    | some h => simpa using hlen h hh
  unfold Store.History at hout
  cases ht : s.targets.get? id with
  | none => simp [ht] at hout
  | some t =>
    simp only [ht] at hout
    split at hout
    · cases hout
      exact le_trans (List.length_take_le' _ _) hD
    · cases hout
      exact hD

/-- Witness of C1: a store that saw an insertion, two results and a removal. -/
theorem history_bounded_witness :
    Reachable ((((New [svc1]).UpsertTarget svc2).Update (okAt "svc1" 1)).RemoveTarget "svc2") ∧
      ((∀ h, ((((New [svc1]).UpsertTarget svc2).Update (okAt "svc1" 1)).RemoveTarget
          "svc2").history.get? "svc1" = some h → h.length ≤ 100) ∧
        (∀ limit out, ((((New [svc1]).UpsertTarget svc2).Update (okAt "svc1" 1)).RemoveTarget
          "svc2").History "svc1" limit = Except.ok out → out.length ≤ 100)) :=
  ⟨Reachable.remove _ (Reachable.update _ (Reachable.upsert _ (Reachable.init _))),
    history_bounded _
      (Reachable.remove _ (Reachable.update _ (Reachable.upsert _ (Reachable.init _)))) "svc1"⟩

/-- C2: for a known target `id` whose history is empty, after `Update` recorded the
results `rs` (all of them for `id`, in that order), `History id 0` returns the last
`min rs.length 100` of them, the most recent first; the first `rs.length - 100` results are
dropped. -/
theorem history_newest_first (s : Store) (id : String) (rs : List CheckResult)
    (hknown : (s.targets.get? id).isSome) (hempty : (s.history.get? id).getD [] = [])
    (hrs : ∀ r ∈ rs, r.TargetID = id) :
    (rs.foldl Store.Update s).History id 0
        = Except.ok ((rs.drop (rs.length - 100)).reverse) ∧
      ((rs.drop (rs.length - 100)).reverse).length = min rs.length 100 ∧
      (rs.drop (rs.length - 100)).reverse = rs.reverse.take 100 := by
  have hh := Store.foldl_Update_history id rs hrs [] s (by simpa using hempty)
  have htake := take_reverse_eq_reverse_drop 100 rs
  refine ⟨?_, ?_, htake.symm⟩
  · obtain ⟨t, ht⟩ := Option.isSome_iff_exists.1 hknown
    unfold Store.History
    rw [Store.foldl_Update_targets, ht]
    simp only [hh, List.nil_append, historyLimit, htake]
    simp
  · simp only [List.length_reverse, List.length_drop]
    omega

/-- Witness of C2: two results recorded for `svc1`. -/
theorem history_newest_first_witness :
    ([okAt "svc1" 1, failAt "svc1" 2].foldl Store.Update (New [svc1])).History "svc1" 0
        = Except.ok (([okAt "svc1" 1, failAt "svc1" 2].drop
            ([okAt "svc1" 1, failAt "svc1" 2].length - 100)).reverse) ∧
      (([okAt "svc1" 1, failAt "svc1" 2].drop
          ([okAt "svc1" 1, failAt "svc1" 2].length - 100)).reverse).length
        = min [okAt "svc1" 1, failAt "svc1" 2].length 100 ∧
      ([okAt "svc1" 1, failAt "svc1" 2].drop
          ([okAt "svc1" 1, failAt "svc1" 2].length - 100)).reverse
        = [okAt "svc1" 1, failAt "svc1" 2].reverse.take 100 :=
  history_newest_first (New [svc1]) "svc1" [okAt "svc1" 1, failAt "svc1" 2] (by decide)
    (by decide) (by decide)

/-! ## What `Status` and `Targets` list -/

theorem mem_sortSlice {α : Type} (key : α → String) (a : α) (l : List α) :
    a ∈ sortSlice key l ↔ a ∈ l :=
  (List.perm_insertionSort _ l).mem_iff

theorem Store.mem_Status (s : Store) (st : TargetStatus) :
    st ∈ s.Status ↔ ∃ id t, s.targets.get? id = some t ∧ st = s.statusOf id t := by
  unfold Store.Status
  rw [mem_sortSlice, List.mem_map]
  constructor
  · rintro ⟨e, he, rfl⟩
    exact ⟨e.1, e.2, (GoMap.mem_entries_iff _ _ _).1 he, rfl⟩
  · rintro ⟨id, t, ht, rfl⟩
    exact ⟨(id, t), (GoMap.mem_entries_iff _ _ _).2 ht, rfl⟩

theorem Store.mem_Targets (s : Store) (t : Target) :
    t ∈ s.Targets ↔ ∃ id, s.targets.get? id = some t := by
  unfold Store.Targets
  rw [mem_sortSlice, List.mem_map]
  constructor
  · rintro ⟨e, he, rfl⟩
    exact ⟨e.1, (GoMap.mem_entries_iff _ _ _).1 he⟩
  · rintro ⟨id, ht⟩
    exact ⟨(id, t), (GoMap.mem_entries_iff _ _ _).2 ht, rfl⟩

theorem Inv.id_of_get? {s : Store} (hs : Inv s) {id : String} {t : Target}
    (ht : s.targets.get? id = some t) : t.ID = id :=
  hs.keyID (id, t) ((GoMap.mem_entries_iff _ _ _).2 ht)

@[simp] theorem Store.statusOf_Target (s : Store) (id : String) (t : Target) :
    (s.statusOf id t).Target = t := rfl

/-- In a state that satisfies the invariants, `Status` has exactly one entry for a
known id: the one computed from what is stored under that id. -/
theorem Store.status_entry {s : Store} (hs : Inv s) {id : String} {t : Target}
    (ht : s.targets.get? id = some t) :
    s.statusOf id t ∈ s.Status ∧ (s.statusOf id t).Target.ID = id ∧
      ∀ st ∈ s.Status, st.Target.ID = id → st = s.statusOf id t := by
  refine ⟨(s.mem_Status _).2 ⟨id, t, ht, rfl⟩, hs.id_of_get? ht, ?_⟩
  intro st hst hid
  obtain ⟨id', t', ht', rfl⟩ := (s.mem_Status st).1 hst
  have h1 : t'.ID = id' := hs.id_of_get? ht'
  have h2 : id' = id := by rw [← h1]; exact hid
  subst h2
  rw [ht] at ht'
  cases ht'
  rfl

theorem Inv.foldl_update {s : Store} (hs : Inv s) (rs : List CheckResult) :
    Inv (rs.foldl Store.Update s) := by
  induction rs generalizing s with
  | nil => exact hs
  | cons r rs ih => exact ih (hs.update r)

/-! ## The failure streak -/

/-- The failure counter after recording `rs` for `id`, starting from a counter at 0. -/
theorem Store.foldl_Update_failures (id : String) (rs : List CheckResult)
    (hrs : ∀ r ∈ rs, r.TargetID = id) (hlen : (rs.length : Int) < 2 ^ 63) (s : Store)
    (h0 : (s.failures.get? id).getD 0 = 0) :
    ((rs.foldl Store.Update s).failures.get? id).getD 0
      = ((rs.reverse.takeWhile (fun x => !x.Success)).length : Int) := by
  induction rs using List.reverseRecOn with
  | nil => simpa using h0
  | append_singleton rs r ih =>
    have hr : r.TargetID = id := hrs r (by simp)
    have hlen' : (rs.length : Int) + 1 < 2 ^ 63 := by simpa using hlen
    have ih' := ih (fun x hx => hrs x (by simp [hx])) (by omega)
    rw [List.foldl_append, List.foldl_cons, List.foldl_nil, List.reverse_append]
    subst hr
    rw [Store.Update_failures_self, Option.getD_some, ih']
    by_cases hsucc : r.Success
    · simp [hsucc]
    · have hle : (rs.reverse.takeWhile (fun x => !x.Success)).length ≤ rs.length := by
        have := (List.takeWhile_sublist (l := rs.reverse) (fun x => !x.Success)).length_le
        simpa using this
      have hle' : ((rs.reverse.takeWhile (fun x => !x.Success)).length : Int) ≤ rs.length :=
        Int.ofNat_le.2 hle
      rw [wrapInt_of_range (by omega) (by omega)]
      simp [hsucc, List.takeWhile_cons]

/-- C4: `Update r` sets the failure counter of `r.TargetID` to 0 when `r` succeeded and
to its previous value plus 1 otherwise (the previous value not being the largest `int`);
hence, for a known target without prior results, after recording `rs` (fewer than `2 ^ 63`
results, so that the `int` counter cannot wrap) the one entry of `Status` for the target
reports as `ConsecutiveFailures` the number of failed results recorded after the last
successful one, whether or not that number exceeds the history capacity. -/
theorem failure_streak (s : Store) (hs : Reachable s) (r : CheckResult)
    (hmax : (s.failures.get? r.TargetID).getD 0 ≠ 2 ^ 63 - 1)
    (id : String) (rs : List CheckResult) (hknown : (s.targets.get? id).isSome)
    (hfresh : (s.history.get? id).getD [] = []) (hrs : ∀ x ∈ rs, x.TargetID = id)
    (hlen : (rs.length : Int) < 2 ^ 63) :
    (s.Update r).failures.get? r.TargetID
        = some (if r.Success then 0 else (s.failures.get? r.TargetID).getD 0 + 1) ∧
      (∃ st ∈ (rs.foldl Store.Update s).Status, st.Target.ID = id ∧
        st.ConsecutiveFailures = ((rs.reverse.takeWhile (fun x => !x.Success)).length : Int)) ∧
      (∀ st ∈ (rs.foldl Store.Update s).Status, st.Target.ID = id →
        st.ConsecutiveFailures = ((rs.reverse.takeWhile (fun x => !x.Success)).length : Int)) := by
  have hinv := hs.inv
  have hprev : -(2 ^ 63) ≤ (s.failures.get? r.TargetID).getD 0 ∧
      (s.failures.get? r.TargetID).getD 0 < 2 ^ 63 := by
    cases hf : s.failures.get? r.TargetID with
    | none => norm_num
    | some v => simpa using hinv.failRange _ v hf
  have hcount := Store.foldl_Update_failures id rs hrs hlen s
    (by rw [hinv.failNone id hfresh]; rfl)
  obtain ⟨t, ht⟩ := Option.isSome_iff_exists.1 hknown
  have ht' : (rs.foldl Store.Update s).targets.get? id = some t := by
    rw [Store.foldl_Update_targets]; exact ht
  have hentry := Store.status_entry (hinv.foldl_update rs) ht'
  refine ⟨?_, ⟨_, hentry.1, hentry.2.1, hcount⟩, ?_⟩
  · rw [Store.Update_failures_self]
    by_cases hsucc : r.Success
    · simp [hsucc]
    · simp only [hsucc, Bool.false_eq_true, if_false]
      rw [wrapInt_of_range (by omega) (by omega)]
  · intro st hst hid
    rw [hentry.2.2 st hst hid]
    exact hcount

/-- Witness of C4: a success followed by two failures leaves a streak of 2. -/
theorem failure_streak_witness :
    ((New [svc1]).Update (failAt "svc1" 1)).failures.get? "svc1" = some 1 ∧
      (∃ st ∈ ([okAt "svc1" 1, failAt "svc1" 2, failAt "svc1" 3].foldl Store.Update
          (New [svc1])).Status, st.Target.ID = "svc1" ∧ st.ConsecutiveFailures = 2) ∧
      (∀ st ∈ ([okAt "svc1" 1, failAt "svc1" 2, failAt "svc1" 3].foldl Store.Update
          (New [svc1])).Status, st.Target.ID = "svc1" → st.ConsecutiveFailures = 2) :=
  failure_streak (New [svc1]) (Reachable.init _) (failAt "svc1" 1) (by decide) "svc1"
    [okAt "svc1" 1, failAt "svc1" 2, failAt "svc1" 3] (by decide) (by decide) (by decide)
    (by norm_num)

/-! ## The last check -/

theorem Store.statusOf_LastCheck (s : Store) (hs : Inv s) (id : String) (t : Target) :
    (s.statusOf id t).LastCheck
      = (((s.history.get? id).getD []).head?).filter (fun x => decide (x.CheckedAt ≠ 0)) := by
  unfold Store.statusOf
  simp only [hs.lastHead id]
  cases ((s.history.get? id).getD []).head? with
  | none => simp [CheckResult.zero, timeIsZero]
  | some x =>
    by_cases hx : x.CheckedAt = 0 <;> simp [timeIsZero, hx, Option.filter]

/-- Counterexample to C5: a result whose `CheckedAt` is the zero time is recorded for the
known target `svc1`, and `Status` still reports no last check for it. -/
theorem last_check_counterexample :
    ((New [svc1]).Update (okAt "svc1" 0)).History "svc1" 0 = Except.ok [okAt "svc1" 0] ∧
      ((New [svc1]).Update (okAt "svc1" 0)).Status.map (fun st => (st.Target.ID, st.LastCheck))
        = [("svc1", none)] := by
  decide

/-- C5, amended: in every reachable state `Status` has exactly one entry for a known
target, and its `LastCheck` is the newest retained result of the target when that result
has a non-zero `CheckedAt`, and null otherwise; so right after `Update r` for the target it
is `r` unless `r.CheckedAt` is the zero time, and after `Scheduler.execute`, which stamps
such a result with the current time, it is never null. -/
theorem last_check_reported (s : Store) (hs : Reachable s) (id : String)
    (hknown : (s.targets.get? id).isSome) (r : CheckResult) (hr : r.TargetID = id)
    (now : Int) (hnow : now ≠ 0) :
    (∃ st ∈ s.Status, st.Target.ID = id ∧
        (∀ st' ∈ s.Status, st'.Target.ID = id → st' = st) ∧
        st.LastCheck
          = (((s.history.get? id).getD []).head?).filter (fun x => decide (x.CheckedAt ≠ 0))) ∧
      (∃ st ∈ (s.Update r).Status, st.Target.ID = id ∧
        (∀ st' ∈ (s.Update r).Status, st'.Target.ID = id → st' = st) ∧
        st.LastCheck = if r.CheckedAt = 0 then none else some r) ∧
      (∃ st ∈ (Scheduler.execute s r now).Status, st.Target.ID = id ∧
        (∀ st' ∈ (Scheduler.execute s r now).Status, st'.Target.ID = id → st' = st) ∧
        st.LastCheck
          = some (if r.CheckedAt = 0 then { r with CheckedAt := now } else r)) := by
  obtain ⟨t, ht⟩ := Option.isSome_iff_exists.1 hknown
  have key : ∀ (s' : Store), Reachable s' → s'.targets.get? id = some t →
      ∃ st ∈ s'.Status, st.Target.ID = id ∧
        (∀ st' ∈ s'.Status, st'.Target.ID = id → st' = st) ∧
        st.LastCheck = (((s'.history.get? id).getD []).head?).filter
          (fun x => decide (x.CheckedAt ≠ 0)) := by
    intro s' hs' ht'
    have he := Store.status_entry hs'.inv ht'
    exact ⟨_, he.1, he.2.1, he.2.2, Store.statusOf_LastCheck s' hs'.inv id t⟩
  have upd : ∀ (x : CheckResult), x.TargetID = id →
      ∃ st ∈ (s.Update x).Status, st.Target.ID = id ∧
        (∀ st' ∈ (s.Update x).Status, st'.Target.ID = id → st' = st) ∧
        st.LastCheck = if x.CheckedAt = 0 then none else some x := by
    intro x hx
    obtain ⟨st, hst, hid, huniq, hlast⟩ := key (s.Update x) (Reachable.update x hs) ht
    refine ⟨st, hst, hid, huniq, ?_⟩
    subst hx
    rw [hlast, Store.Update_history_self]
    by_cases hc : x.CheckedAt = 0 <;> simp [historyLimit, hc, Option.filter]
  refine ⟨key s hs ht, upd r hr, ?_⟩
  unfold Scheduler.execute
  by_cases hc : r.CheckedAt = 0
  · obtain ⟨st, hst, hid, huniq, hlast⟩ := upd { r with CheckedAt := now } hr
    simp only [timeIsZero, hc, decide_True, if_true]
    exact ⟨st, hst, hid, huniq, by simpa [hnow] using hlast⟩
  · obtain ⟨st, hst, hid, huniq, hlast⟩ := upd r hr
    simp only [timeIsZero, hc, decide_False, Bool.false_eq_true, if_false]
    exact ⟨st, hst, hid, huniq, by simpa [hc] using hlast⟩

/-- Witness of the amended C5: a result without timestamp for the known target `svc1`,
recorded directly and recorded through `Scheduler.execute` at instant 12. -/
theorem last_check_reported_witness :
    Reachable (New [svc1]) ∧
      (∃ st ∈ (New [svc1]).Status, st.Target.ID = "svc1" ∧
        (∀ st' ∈ (New [svc1]).Status, st'.Target.ID = "svc1" → st' = st) ∧
        st.LastCheck = none) ∧
      (∃ st ∈ ((New [svc1]).Update (okAt "svc1" 0)).Status, st.Target.ID = "svc1" ∧
        (∀ st' ∈ ((New [svc1]).Update (okAt "svc1" 0)).Status,
          st'.Target.ID = "svc1" → st' = st) ∧
        st.LastCheck = none) ∧
      (∃ st ∈ (Scheduler.execute (New [svc1]) (okAt "svc1" 0) 12).Status,
        st.Target.ID = "svc1" ∧
        (∀ st' ∈ (Scheduler.execute (New [svc1]) (okAt "svc1" 0) 12).Status,
          st'.Target.ID = "svc1" → st' = st) ∧
        st.LastCheck = some (okAt "svc1" 12)) :=
  ⟨Reachable.init _,
    last_check_reported (New [svc1]) (Reachable.init _) "svc1" (by decide) (okAt "svc1" 0) rfl
      12 (by decide)⟩

/-! ## Results for ids that are not known -/

theorem Store.statusOf_Update_ne (s : Store) (r : CheckResult) {id : String}
    (h : id ≠ r.TargetID) (t : Target) : (s.Update r).statusOf id t = s.statusOf id t := by
  unfold Store.statusOf
  rw [Store.Update_last_ne s r h, Store.Update_history_ne s r h, Store.Update_failures_ne s r h]

theorem Store.History_Update_ne (s : Store) (r : CheckResult) {id : String}
    (h : id ≠ r.TargetID) (limit : Int) : (s.Update r).History id limit = s.History id limit := by
  unfold Store.History
  rw [Store.Update_targets, Store.Update_history_ne s r h]

/-- Counterexample to C6: on the store without targets, `Update` with a result for the
unknown id `ghost` changes the state: the result is stored as last result and as history
and a failure counter is created. -/
theorem update_unknown_counterexample :
    (New []).targets.get? "ghost" = none ∧
      (New []).Update (failAt "ghost" 1) ≠ New [] ∧
      ((New []).Update (failAt "ghost" 1)).last.get? "ghost" = some (failAt "ghost" 1) ∧
      ((New []).Update (failAt "ghost" 1)).history.get? "ghost" = some [failAt "ghost" 1] ∧
      ((New []).Update (failAt "ghost" 1)).failures.get? "ghost" = some 1 := by
  decide

/-- C6, amended: for every state and every result whose `TargetID` is not the id of a
known target, `Update` leaves the target definitions and what is stored for every other id
unchanged, so that `Targets`, `Status` and `History` return what they returned before;
it does write the last result, the history and the failure counter of that id. -/
theorem update_unknown_invisible (s : Store) (r : CheckResult)
    (hunknown : s.targets.get? r.TargetID = none) :
    (s.Update r).targets = s.targets ∧
      (s.Update r).Targets = s.Targets ∧
      (s.Update r).Status = s.Status ∧
      (∀ id limit, (s.Update r).History id limit = s.History id limit) ∧
      (∀ id, id ≠ r.TargetID → (s.Update r).last.get? id = s.last.get? id ∧
        (s.Update r).history.get? id = s.history.get? id ∧
        (s.Update r).failures.get? id = s.failures.get? id) ∧
      (s.Update r).last.get? r.TargetID = some r ∧
      (s.Update r).history.get? r.TargetID
        = some ((r :: (s.history.get? r.TargetID).getD []).take 100) ∧
      (s.Update r).failures.get? r.TargetID
        = some (if r.Success then 0
            else wrapInt ((s.failures.get? r.TargetID).getD 0 + 1)) := by
  refine ⟨rfl, rfl, ?_, ?_, ?_, Store.Update_last_self s r, Store.Update_history_self s r,
    Store.Update_failures_self s r⟩
  · unfold Store.Status
    rw [Store.Update_targets]
    congr 1
    apply List.map_congr_left
    intro e he
    have hne : e.1 ≠ r.TargetID := (GoMap.get?_eq_none_iff _ _).1 hunknown e he
    exact Store.statusOf_Update_ne s r hne e.2
  · intro id limit
    by_cases hid : id = r.TargetID
    · subst hid
      simp [Store.History, hunknown]
    · exact Store.History_Update_ne s r hid limit
  · intro id hid
    exact ⟨Store.Update_last_ne s r hid, Store.Update_history_ne s r hid,
      Store.Update_failures_ne s r hid⟩

/-- Witness of the amended C6: a late result for the removed target `svc2`. -/
theorem update_unknown_invisible_witness :
    (New [svc1]).targets.get? (failAt "svc2" 4).TargetID = none ∧
      ((New [svc1]).Update (failAt "svc2" 4)).Status = (New [svc1]).Status ∧
      ((New [svc1]).Update (failAt "svc2" 4)).last.get? "svc2" = some (failAt "svc2" 4) :=
  ⟨by decide,
    (update_unknown_invisible (New [svc1]) (failAt "svc2" 4) (by decide)).2.2.1,
    (update_unknown_invisible (New [svc1]) (failAt "svc2" 4) (by decide)).2.2.2.2.2.1⟩

/-! ## Removed targets stay unlisted -/

theorem Store.step_targets_none (s : Store) (id : String) (op : Op)
    (hop : op.upserts id = false) (h : s.targets.get? id = none) :
    (s.step op).targets.get? id = none := by
  cases op with
  | upsert t =>
    have hne : id ≠ t.ID := by
      intro heq
      simp [Op.upserts, heq] at hop
    simp only [Store.step, Store.UpsertTarget_targets]
    rw [GoMap.get?_set_ne _ _ hne]
    exact h
  | remove k =>
    simp only [Store.step, Store.RemoveTarget]
    by_cases hk : id = k
    · subst hk
      exact GoMap.get?_delete_self _ _
    · rw [GoMap.get?_delete_ne _ hk]
      exact h
  | update r => exact h

theorem Store.run_targets_none (id : String) (ops : List Op)
    (hops : ∀ op ∈ ops, op.upserts id = false) (s : Store) (h : s.targets.get? id = none) :
    (s.run ops).targets.get? id = none := by
  induction ops generalizing s with
  | nil => exact h
  | cons op ops ih =>
    exact ih (fun o ho => hops o (List.mem_cons_of_mem op ho)) (s.step op)
      (Store.step_targets_none s id op (hops op (List.mem_cons_self op ops)) h)

/-- C7: from a reachable state, after `RemoveTarget id` and any further calls none of
which is an `UpsertTarget` for `id` (late `Update` calls for `id` included), neither
`Status` nor `Targets` has an entry for `id`. -/
theorem removed_stays_unlisted (s : Store) (hs : Reachable s) (id : String) (ops : List Op)
    (hops : ∀ op ∈ ops, op.upserts id = false) :
    (∀ st ∈ ((s.RemoveTarget id).run ops).Status, st.Target.ID ≠ id) ∧
      (∀ t ∈ ((s.RemoveTarget id).run ops).Targets, t.ID ≠ id) := by
  have hnone : ((s.RemoveTarget id).run ops).targets.get? id = none :=
    Store.run_targets_none id ops hops _ (GoMap.get?_delete_self _ _)
  have hinv : Inv ((s.RemoveTarget id).run ops) := ((Reachable.remove id hs).run ops).inv
  constructor
  · intro st hst hid
    obtain ⟨id', t, ht, rfl⟩ := (Store.mem_Status _ st).1 hst
    have h1 : t.ID = id' := hinv.id_of_get? ht
    have h2 : id' = id := by rw [← h1]; exact hid
    rw [h2, hnone] at ht
    cases ht
  · intro t hmem hid
    obtain ⟨id', ht⟩ := (Store.mem_Targets _ t).1 hmem
    have h1 : t.ID = id' := hinv.id_of_get? ht
    have h2 : id' = id := by rw [← h1]; exact hid
    rw [h2, hnone] at ht
    cases ht

/-- Witness of C7: `svc1` is removed, then a late result for it arrives and other
targets are edited. -/
theorem removed_stays_unlisted_witness :
    Reachable ((New [svc1, svc2]).Update (okAt "svc1" 3)) ∧
      (∀ op ∈ [Op.update (failAt "svc1" 5), Op.upsert svc2, Op.update (okAt "svc1" 6),
          Op.remove "svc2"], op.upserts "svc1" = false) ∧
      (∀ st ∈ ((((New [svc1, svc2]).Update (okAt "svc1" 3)).RemoveTarget "svc1").run
          [Op.update (failAt "svc1" 5), Op.upsert svc2, Op.update (okAt "svc1" 6),
            Op.remove "svc2"]).Status, st.Target.ID ≠ "svc1") ∧
      (∀ t ∈ ((((New [svc1, svc2]).Update (okAt "svc1" 3)).RemoveTarget "svc1").run
          [Op.update (failAt "svc1" 5), Op.upsert svc2, Op.update (okAt "svc1" 6),
            Op.remove "svc2"]).Targets, t.ID ≠ "svc1") :=
  ⟨Reachable.update _ (Reachable.init _), by decide,
    removed_stays_unlisted ((New [svc1, svc2]).Update (okAt "svc1" 3))
      (Reachable.update _ (Reachable.init _)) "svc1"
      [Op.update (failAt "svc1" 5), Op.upsert svc2, Op.update (okAt "svc1" 6), Op.remove "svc2"]
      (by decide)⟩

/-! ## Adding, replacing and removing targets -/

@[simp] theorem calculateUptime_nil : calculateUptime [] = 0 := by
  simp [calculateUptime]

/-- Counterexample to C8: `svc1` is not known, but a result for it was recorded (a late
result of a removed target); `UpsertTarget svc1` then leaves `svc1` with that result as
history, as last check and with a failure streak of 1. -/
theorem upsert_new_counterexample :
    Reachable ((New []).Update (failAt "svc1" 7)) ∧
      ((New []).Update (failAt "svc1" 7)).targets.get? "svc1" = none ∧
      (((New []).Update (failAt "svc1" 7)).UpsertTarget svc1).History "svc1" 0
        = Except.ok [failAt "svc1" 7] ∧
      (((New []).Update (failAt "svc1" 7)).UpsertTarget svc1).Status.map
          (fun st => (st.Target.ID, st.ConsecutiveFailures, st.LastCheck))
        = [("svc1", 1, some (failAt "svc1" 7))] :=
  ⟨Reachable.update _ (Reachable.init _), by decide, by decide, by decide⟩

/-- C8, amended: for every reachable state in which no result is retained for `target.ID`
(its history is empty), in particular when that id is not a known target and no result was
recorded for it while it was unknown, `UpsertTarget target` leaves the id with an empty
history and a zero failure streak: `History` returns the empty list and the one entry of
`Status` for the id carries the new definition, `ConsecutiveFailures = 0`, `UptimePerc = 0`
and no `LastCheck`. -/
theorem upsert_new_target (s : Store) (hs : Reachable s) (target : Target)
    (hnone : (s.history.get? target.ID).getD [] = []) :
    (s.UpsertTarget target).targets.get? target.ID = some target ∧
      (s.UpsertTarget target).History target.ID 0 = Except.ok [] ∧
      (s.UpsertTarget target).failures.get? target.ID = none ∧
      ∃ st ∈ (s.UpsertTarget target).Status, st.Target = target ∧
        (∀ st' ∈ (s.UpsertTarget target).Status, st'.Target.ID = target.ID → st' = st) ∧
        st.ConsecutiveFailures = 0 ∧ st.UptimePerc = 0 ∧ st.LastCheck = none := by
  have hinv : Inv (s.UpsertTarget target) := (Reachable.upsert target hs).inv
  have ht : (s.UpsertTarget target).targets.get? target.ID = some target := by simp
  have hh : ((s.UpsertTarget target).history.get? target.ID).getD [] = [] := by
    rw [Store.UpsertTarget_history_getD]; exact hnone
  have hf : (s.UpsertTarget target).failures.get? target.ID = none := hinv.failNone _ hh
  have he := Store.status_entry hinv ht
  refine ⟨ht, ?_, hf, _, he.1, rfl, he.2.2, ?_, ?_, ?_⟩
  · unfold Store.History
    rw [ht]
    simp [hh]
  · have hf' : s.failures.get? target.ID = none := hf
    simp [Store.statusOf, hf']
  · show calculateUptime (((s.UpsertTarget target).history.get? target.ID).getD []) = 0
    rw [hh]
    exact calculateUptime_nil
  · rw [Store.statusOf_LastCheck _ hinv, hh]
    rfl

/-- Witness of the amended C8: `svc2` is added to a store that only knows `svc1`. -/
theorem upsert_new_target_witness :
    Reachable ((New [svc1]).Update (okAt "svc1" 2)) ∧
      ((New [svc1]).Update (okAt "svc1" 2)).targets.get? svc2.ID = none ∧
      (((New [svc1]).Update (okAt "svc1" 2)).UpsertTarget svc2).targets.get? svc2.ID
        = some svc2 ∧
      (((New [svc1]).Update (okAt "svc1" 2)).UpsertTarget svc2).History svc2.ID 0
        = Except.ok [] ∧
      (((New [svc1]).Update (okAt "svc1" 2)).UpsertTarget svc2).failures.get? svc2.ID = none ∧
      ∃ st ∈ (((New [svc1]).Update (okAt "svc1" 2)).UpsertTarget svc2).Status,
        st.Target = svc2 ∧
        (∀ st' ∈ (((New [svc1]).Update (okAt "svc1" 2)).UpsertTarget svc2).Status,
          st'.Target.ID = svc2.ID → st' = st) ∧
        st.ConsecutiveFailures = 0 ∧ st.UptimePerc = 0 ∧ st.LastCheck = none :=
  ⟨Reachable.update _ (Reachable.init _), by decide,
    upsert_new_target ((New [svc1]).Update (okAt "svc1" 2))
      (Reachable.update _ (Reachable.init _)) svc2 (by decide)⟩

/-- C9: in every state, so in every reachable state in which `target.ID` is already a
known target, `UpsertTarget target` replaces the definition of that id and nothing else:
the definitions of the other ids, all last results, all failure counters and the history
read for every id are as before (the history map itself too when it already has the id as
key), and a second identical call changes nothing more. -/
theorem upsert_existing_frame (s : Store) (target : Target) :
    (s.UpsertTarget target).targets.get? target.ID = some target ∧
      (∀ id, id ≠ target.ID → (s.UpsertTarget target).targets.get? id = s.targets.get? id) ∧
      (s.UpsertTarget target).last = s.last ∧
      (s.UpsertTarget target).failures = s.failures ∧
      (∀ id, ((s.UpsertTarget target).history.get? id).getD [] = (s.history.get? id).getD []) ∧
      ((s.history.get? target.ID).isSome → (s.UpsertTarget target).history = s.history) ∧
      (s.UpsertTarget target).UpsertTarget target = s.UpsertTarget target := by
  refine ⟨by simp, ?_, rfl, rfl, Store.UpsertTarget_history_getD s target, ?_, ?_⟩
  · intro id hid
    simp [GoMap.get?_set_ne _ _ hid]
  · intro h
    obtain ⟨x, hx⟩ := Option.isSome_iff_exists.1 h
    simp [Store.UpsertTarget, hx]
  · cases hh : s.history.get? target.ID with
    | some x => simp [Store.UpsertTarget, hh, GoMap.set_set]
    | none => simp [Store.UpsertTarget, hh, GoMap.set_set]

/-- Witness of C9: the definition of `svc1` is replaced after two results. -/
theorem upsert_existing_frame_witness :
    (([okAt "svc1" 1, failAt "svc1" 2].foldl Store.Update (New [svc1])).targets.get?
        ({ svc1 with Name := "renamed", Frequency := 10 } : Target).ID).isSome ∧
      (([okAt "svc1" 1, failAt "svc1" 2].foldl Store.Update (New [svc1])).UpsertTarget
          { svc1 with Name := "renamed", Frequency := 10 }).targets.get? "svc1"
        = some { svc1 with Name := "renamed", Frequency := 10 } ∧
      (([okAt "svc1" 1, failAt "svc1" 2].foldl Store.Update (New [svc1])).UpsertTarget
          { svc1 with Name := "renamed", Frequency := 10 }).history
        = ([okAt "svc1" 1, failAt "svc1" 2].foldl Store.Update (New [svc1])).history :=
  ⟨by decide,
    (upsert_existing_frame ([okAt "svc1" 1, failAt "svc1" 2].foldl Store.Update (New [svc1]))
      { svc1 with Name := "renamed", Frequency := 10 }).1,
    (upsert_existing_frame ([okAt "svc1" 1, failAt "svc1" 2].foldl Store.Update (New [svc1]))
      { svc1 with Name := "renamed", Frequency := 10 }).2.2.2.2.2.1 (by decide)⟩

theorem Store.statusOf_RemoveTarget_ne (s : Store) {k id : String} (h : id ≠ k) (t : Target) :
    (s.RemoveTarget k).statusOf id t = s.statusOf id t := by
  simp only [Store.statusOf, Store.RemoveTarget, GoMap.get?_delete_ne _ h]

/-- C10: `RemoveTarget id` deletes the definition, the last result, the history and the
failure counter of `id` and leaves what is stored under every other id as it was; when `id`
is not a known target, `Targets`, `Status` and `History` return what they returned before;
a second identical call changes nothing more. -/
theorem remove_target_effect (s : Store) (id : String) :
    ((s.RemoveTarget id).targets.get? id = none ∧ (s.RemoveTarget id).last.get? id = none ∧
        (s.RemoveTarget id).history.get? id = none ∧
        (s.RemoveTarget id).failures.get? id = none) ∧
      (∀ k, k ≠ id → (s.RemoveTarget id).targets.get? k = s.targets.get? k ∧
        (s.RemoveTarget id).last.get? k = s.last.get? k ∧
        (s.RemoveTarget id).history.get? k = s.history.get? k ∧
        (s.RemoveTarget id).failures.get? k = s.failures.get? k) ∧
      (s.targets.get? id = none →
        (s.RemoveTarget id).Targets = s.Targets ∧ (s.RemoveTarget id).Status = s.Status ∧
        ∀ k limit, (s.RemoveTarget id).History k limit = s.History k limit) ∧
      (s.RemoveTarget id).RemoveTarget id = s.RemoveTarget id := by
  refine ⟨⟨GoMap.get?_delete_self _ _, GoMap.get?_delete_self _ _, GoMap.get?_delete_self _ _,
    GoMap.get?_delete_self _ _⟩, ?_, ?_, ?_⟩
  · intro k hk
    exact ⟨GoMap.get?_delete_ne _ hk, GoMap.get?_delete_ne _ hk, GoMap.get?_delete_ne _ hk,
      GoMap.get?_delete_ne _ hk⟩
  · intro hunknown
    have htargets : (s.RemoveTarget id).targets = s.targets := GoMap.delete_eq_self hunknown
    refine ⟨?_, ?_, ?_⟩
    · unfold Store.Targets
      rw [htargets]
    · unfold Store.Status
      rw [htargets]
      congr 1
      apply List.map_congr_left
      intro e he
      have hne : e.1 ≠ id := (GoMap.get?_eq_none_iff _ _).1 hunknown e he
      exact Store.statusOf_RemoveTarget_ne s hne e.2
    · intro k limit
      unfold Store.History
      rw [htargets]
      by_cases hk : k = id
      · subst hk
        simp [hunknown]
      · have hh : (s.RemoveTarget id).history.get? k = s.history.get? k :=
          GoMap.get?_delete_ne _ hk
        rw [hh]
  · simp [Store.RemoveTarget, GoMap.delete_delete]

/-- Witness of C10: removing the unknown id `svc2`, for which a late result is held,
changes nothing that `Targets`, `Status` and `History` return. -/
theorem remove_target_effect_witness :
    ((New [svc1]).Update (failAt "svc2" 4)).targets.get? "svc2" = none ∧
      ((New [svc1]).Update (failAt "svc2" 4)).last.get? "svc2" = some (failAt "svc2" 4) ∧
      ((((New [svc1]).Update (failAt "svc2" 4)).RemoveTarget "svc2").Targets
          = ((New [svc1]).Update (failAt "svc2" 4)).Targets ∧
        (((New [svc1]).Update (failAt "svc2" 4)).RemoveTarget "svc2").Status
          = ((New [svc1]).Update (failAt "svc2" 4)).Status ∧
        ∀ k limit, (((New [svc1]).Update (failAt "svc2" 4)).RemoveTarget "svc2").History k limit
          = ((New [svc1]).Update (failAt "svc2" 4)).History k limit) :=
  ⟨by decide, by decide,
    (remove_target_effect ((New [svc1]).Update (failAt "svc2" 4)) "svc2").2.2.1 (by decide)⟩

/-! ## Rounding to `float64` -/

theorem roundHalfEven_err (A B : Nat) (hB : 0 < B) :
    |(roundHalfEven A B : ℚ) - (A : ℚ) / B| ≤ 1 / 2 := by
  have hBq : (0 : ℚ) < B := by exact_mod_cast hB
  have hdiv : (A : ℚ) / B = (A / B : Nat) + ((A % B : Nat) : ℚ) / B := by
    have h := Nat.div_add_mod A B
    have h' : (A : ℚ) = (B : ℚ) * (A / B : Nat) + (A % B : Nat) := by exact_mod_cast h.symm
    field_simp
    linarith
  have hr : ((A % B : Nat) : ℚ) < B := by exact_mod_cast Nat.mod_lt A hB
  have hr0 : (0 : ℚ) ≤ ((A % B : Nat) : ℚ) := by positivity
  rw [hdiv]
  set r : ℚ := ((A % B : Nat) : ℚ) with hrdef
  set qt : ℚ := ((A / B : Nat) : ℚ) with hqdef
  have hfrac : r / B * B = r := by field_simp
  unfold roundHalfEven
  simp only
  split_ifs with h1 h2 h3
  · have h1' : 2 * r < B := by rw [hrdef]; exact_mod_cast h1
    rw [abs_le]
    constructor
    · have : r / B ≤ 1 / 2 := by rw [div_le_iff₀ hBq]; linarith
      linarith
    · have : 0 ≤ r / B := by positivity
      linarith
  · have h2' : (B : ℚ) < 2 * r := by rw [hrdef]; exact_mod_cast h2
    push_cast
    rw [abs_le]
    constructor
    · have : r / B < 1 := by rw [div_lt_iff₀ hBq]; linarith
      linarith
    · have : 1 / 2 ≤ r / B := by rw [le_div_iff₀ hBq]; linarith
      linarith
  · have heq : 2 * r = B := by
      have : 2 * (A % B) = B := by omega
      rw [hrdef]; exact_mod_cast this
    have : r / B = 1 / 2 := by rw [div_eq_iff hBq.ne']; linarith
    rw [this, abs_le]
    constructor <;> linarith
  · have heq : 2 * r = B := by
      have : 2 * (A % B) = B := by omega
      rw [hrdef]; exact_mod_cast this
    have : r / B = 1 / 2 := by rw [div_eq_iff hBq.ne']; linarith
    push_cast
    rw [this, abs_le]
    constructor <;> linarith


theorem two_zpow_split (d : Int) :
    (2 : ℚ) ^ d = (2 : ℚ) ^ d.toNat / (2 : ℚ) ^ (-d).toNat := by
  rcases le_total 0 d with h | h
  · have h1 : (-d).toNat = 0 := Int.toNat_eq_zero.2 (by omega)
    have h2 : ((d.toNat : Nat) : Int) = d := Int.toNat_of_nonneg h
    rw [h1, pow_zero, div_one, ← zpow_natCast, h2]
  · have h1 : d.toNat = 0 := Int.toNat_eq_zero.2 h
    have h2 : (((-d).toNat : Nat) : Int) = -d := Int.toNat_of_nonneg (by omega)
    rw [h1, pow_zero, one_div, ← zpow_natCast, h2, zpow_neg, inv_inv]

/-- The exponent `floorLog2` finds is the binary order of magnitude of `p / q`. -/
theorem floorLog2_spec (p q : Nat) (hp : 0 < p) (hq : 0 < q) :
    (2 : ℚ) ^ floorLog2 p q ≤ (p : ℚ) / q ∧ (p : ℚ) / q < (2 : ℚ) ^ (floorLog2 p q + 1) := by
  have hpq : (0 : ℚ) < p := by exact_mod_cast hp
  have hqq : (0 : ℚ) < q := by exact_mod_cast hq
  have hp1 : ((2 : ℚ) ^ p.log2) ≤ p := by exact_mod_cast Nat.log2_self_le hp.ne'
  have hp2 : (p : ℚ) < (2 : ℚ) ^ (p.log2 + 1) := by exact_mod_cast (Nat.lt_log2_self (n := p))
  have hq1 : ((2 : ℚ) ^ q.log2) ≤ q := by exact_mod_cast Nat.log2_self_le hq.ne'
  have hq2 : (q : ℚ) < (2 : ℚ) ^ (q.log2 + 1) := by exact_mod_cast (Nat.lt_log2_self (n := q))
  have h2 : (0 : ℚ) < 2 := by norm_num
  have hd : ∀ k : Int, (2 : ℚ) ^ ((p.log2 : Int) - (q.log2 : Int) + k)
      = (2 : ℚ) ^ (p.log2) * (2 : ℚ) ^ k / (2 : ℚ) ^ (q.log2) := by
    intro k
    rw [zpow_add₀ h2.ne', zpow_sub₀ h2.ne', zpow_natCast, zpow_natCast]
    ring
  unfold floorLog2
  simp only
  split_ifs with hc
  · constructor
    · rw [two_zpow_split, div_le_div_iff₀ (by positivity) hqq]
      have : ((q * 2 ^ ((p.log2 : Int) - (q.log2 : Int)).toNat : Nat) : ℚ)
          ≤ ((p * 2 ^ (-((p.log2 : Int) - (q.log2 : Int))).toNat : Nat) : ℚ) := by
        exact_mod_cast hc
      push_cast at this
      linarith
    · rw [hd 1, lt_div_iff₀ (by positivity), div_mul_eq_mul_div, div_lt_iff₀ hqq]
      have e1 : (2 : ℚ) ^ (p.log2 + 1) = (2 : ℚ) ^ p.log2 * (2 : ℚ) ^ (1 : Int) := by
        rw [pow_succ]; norm_num
      calc (p : ℚ) * (2 : ℚ) ^ q.log2 ≤ p * q := by
            exact mul_le_mul_of_nonneg_left hq1 hpq.le
        _ < (2 : ℚ) ^ p.log2 * (2 : ℚ) ^ (1 : Int) * q := by
            rw [← e1]; exact mul_lt_mul_of_pos_right hp2 hqq
  · constructor
    · have e0 : (p.log2 : Int) - (q.log2 : Int) - 1 = (p.log2 : Int) - (q.log2 : Int) + (-1) := by
        ring
      rw [e0, hd (-1), div_le_div_iff₀ (by positivity) hqq]
      have e1 : (2 : ℚ) ^ (q.log2 + 1) = (2 : ℚ) ^ q.log2 * 2 := pow_succ _ _
      have e2 : (2 : ℚ) ^ (-1 : Int) = 1 / 2 := by norm_num
      rw [e2]
      have hA : (2 : ℚ) ^ p.log2 * q ≤ (2 : ℚ) ^ p.log2 * ((2 : ℚ) ^ q.log2 * 2) := by
        apply mul_le_mul_of_nonneg_left _ (by positivity)
        rw [← e1]; exact hq2.le
      have hB : (2 : ℚ) ^ p.log2 * ((2 : ℚ) ^ q.log2 * 2) ≤ p * ((2 : ℚ) ^ q.log2 * 2) :=
        mul_le_mul_of_nonneg_right hp1 (by positivity)
      nlinarith [hA, hB]
    · have e0 : (p.log2 : Int) - (q.log2 : Int) - 1 + 1 = (p.log2 : Int) - (q.log2 : Int) := by
        ring
      rw [e0, two_zpow_split, div_lt_div_iff₀ hqq (by positivity)]
      have hc' := Nat.lt_of_not_le hc
      have : ((p * 2 ^ (-((p.log2 : Int) - (q.log2 : Int))).toNat : Nat) : ℚ)
          < ((q * 2 ^ ((p.log2 : Int) - (q.log2 : Int)).toNat : Nat) : ℚ) := by
        exact_mod_cast hc'
      push_cast at this
      linarith


/-- Rounding a positive rational to 53 significant bits changes it by at most half a unit
in the last place, hence by a relative error of at most `2 ^ (-53)`. -/
theorem roundPos_err (p q : Nat) (hp : 0 < p) (hq : 0 < q) :
    |roundPos p q - (p : ℚ) / q| ≤ (p : ℚ) / q / 2 ^ 53 := by
  have hspec := (floorLog2_spec p q hp hq).1
  unfold roundPos
  simp only
  set sh : Int := floorLog2 p q - 52 with hsh
  have hB : 0 < q * 2 ^ sh.toNat := Nat.mul_pos hq (by positivity)
  have herr := roundHalfEven_err (p * 2 ^ (-sh).toNat) (q * 2 ^ sh.toNat) hB
  set m : ℚ := (roundHalfEven (p * 2 ^ (-sh).toNat) (q * 2 ^ sh.toNat) : ℚ) with hm
  have hpos : (0 : ℚ) < (2 : ℚ) ^ sh := by positivity
  have hqq : (0 : ℚ) < q := by exact_mod_cast hq
  have hscale : ((p * 2 ^ (-sh).toNat : Nat) : ℚ) / ((q * 2 ^ sh.toNat : Nat) : ℚ)
      = (p : ℚ) / q / (2 : ℚ) ^ sh := by
    rw [two_zpow_split sh]
    push_cast
    field_simp
  rw [hscale] at herr
  have hfactor : m * (2 : ℚ) ^ sh - (p : ℚ) / q
      = (m - (p : ℚ) / q / (2 : ℚ) ^ sh) * (2 : ℚ) ^ sh := by
    field_simp
    ring
  rw [hfactor, abs_mul, abs_of_pos hpos]
  have hulp : (2 : ℚ) ^ sh = (2 : ℚ) ^ floorLog2 p q / 2 ^ 52 := by
    rw [hsh, zpow_sub₀ (by norm_num : (2 : ℚ) ≠ 0)]
    norm_num
  calc |m - (p : ℚ) / q / (2 : ℚ) ^ sh| * (2 : ℚ) ^ sh
      ≤ 1 / 2 * (2 : ℚ) ^ sh := mul_le_mul_of_nonneg_right herr hpos.le
    _ = (2 : ℚ) ^ floorLog2 p q / 2 ^ 53 := by rw [hulp]; ring
    _ ≤ (p : ℚ) / q / 2 ^ 53 := by
        apply div_le_div_of_nonneg_right hspec (by positivity)

/-- A positive integer below `2 ^ 53` is a `float64`. -/
theorem roundPos_nat (k : Nat) (hk : 0 < k) (hlt : k < 2 ^ 53) : roundPos k 1 = k := by
  have hspec := floorLog2_spec k 1 hk Nat.one_pos
  have hle : floorLog2 k 1 ≤ 52 := by
    by_contra hcon
    have h53 : (53 : Int) ≤ floorLog2 k 1 := by omega
    have h1 : (2 : ℚ) ^ (53 : Int) ≤ (2 : ℚ) ^ floorLog2 k 1 :=
      zpow_le_zpow_right₀ (by norm_num) h53
    have h2 : (k : ℚ) < 2 ^ 53 := by exact_mod_cast hlt
    have h3 := hspec.1
    simp only [Nat.cast_one, div_one] at h3
    have h4 : (2 : ℚ) ^ (53 : Int) = 2 ^ 53 := by norm_num
    linarith
  unfold roundPos
  simp only
  set sh : Int := floorLog2 k 1 - 52 with hsh
  have hsh0 : sh.toNat = 0 := Int.toNat_eq_zero.2 (by omega)
  have hround : ∀ n : Nat, roundHalfEven n 1 = n := by
    intro n
    simp [roundHalfEven, Nat.mod_one]
  rw [hsh0, pow_zero, Nat.mul_one, hround, two_zpow_split sh, hsh0]
  push_cast
  field_simp


theorem roundF64_of_pos (x : ℚ) (hx : 0 < x) : roundF64 x = roundPos x.num.natAbs x.den := by
  unfold roundF64
  rw [if_neg hx.ne', if_neg (not_lt.2 hx.le), one_mul]

theorem roundF64_div_of_coprime (p q : Nat) (hp : 0 < p) (hq : 0 < q) (hc : Nat.Coprime p q) :
    roundF64 ((p : ℚ) / q) = roundPos p q := by
  have hpos : (0 : ℚ) < (p : ℚ) / q := by positivity
  have hnum : ((p : ℚ) / q).num = p := by
    have := Rat.num_div_eq_of_coprime (a := (p : Int)) (b := (q : Int)) (by exact_mod_cast hq)
      (by simpa using hc)
    simpa using this
  have hden : (((p : ℚ) / q).den : Int) = q := by
    have := Rat.den_div_eq_of_coprime (a := (p : Int)) (b := (q : Int)) (by exact_mod_cast hq)
      (by simpa using hc)
    simpa using this
  rw [roundF64_of_pos _ hpos, hnum, Int.natAbs_ofNat]
  congr 1
  exact_mod_cast hden

theorem roundF64_natCast (k : Nat) (hlt : k < 2 ^ 53) : roundF64 (k : ℚ) = k := by
  rcases Nat.eq_zero_or_pos k with rfl | hk
  · simp [roundF64]
  · have hpos : (0 : ℚ) < (k : ℚ) := by exact_mod_cast hk
    rw [roundF64_of_pos _ hpos, Rat.num_natCast, Rat.den_natCast, Int.natAbs_ofNat]
    exact roundPos_nat k hk hlt

/-- Rounding a rational `x ≥ 0` to a `float64` changes it by at most `x / 2 ^ 53`. -/
theorem roundF64_err (x : ℚ) (hx : 0 ≤ x) : |roundF64 x - x| ≤ x / 2 ^ 53 := by
  rcases hx.eq_or_lt with h0 | hpos
  · rw [← h0]
    simp [roundF64]
  · have hnum : 0 < x.num := Rat.num_pos.2 hpos
    have hp : 0 < x.num.natAbs := Int.natAbs_pos.2 hnum.ne'
    have hcast : ((x.num.natAbs : Nat) : ℚ) / (x.den : ℚ) = x := by
      have h1 : ((x.num.natAbs : Nat) : Int) = x.num := Int.natAbs_of_nonneg hnum.le
      have h2 : ((x.num.natAbs : Nat) : ℚ) = ((x.num : Int) : ℚ) := by
        rw [← Int.cast_natCast, h1]
      rw [h2]
      exact Rat.num_div_den x
    have := roundPos_err x.num.natAbs x.den hp x.den_pos
    rw [hcast] at this
    rw [roundF64_of_pos _ hpos]
    exact this



/-- The exponent is determined by the two bounds of `floorLog2_spec`. -/
theorem floorLog2_unique (p q : Nat) (hp : 0 < p) (hq : 0 < q) (e : Int)
    (h1 : (2 : ℚ) ^ e ≤ (p : ℚ) / q) (h2 : (p : ℚ) / q < (2 : ℚ) ^ (e + 1)) :
    floorLog2 p q = e := by
  obtain ⟨g1, g2⟩ := floorLog2_spec p q hp hq
  have hlt : ∀ a b : Int, (2 : ℚ) ^ a < (2 : ℚ) ^ (b + 1) → a ≤ b := by
    intro a b hab
    have := (zpow_lt_zpow_iff_right₀ (by norm_num : (1 : ℚ) < 2)).1 hab
    omega
  have ha := hlt _ _ (lt_of_le_of_lt g1 h2)
  have hb := hlt _ _ (lt_of_le_of_lt h1 g2)
  omega

theorem roundPos_eq (p q : Nat) (hp : 0 < p) (hq : 0 < q) (e : Int)
    (h1 : (2 : ℚ) ^ e ≤ (p : ℚ) / q) (h2 : (p : ℚ) / q < (2 : ℚ) ^ (e + 1)) :
    roundPos p q
      = (roundHalfEven (p * 2 ^ (-(e - 52)).toNat) (q * 2 ^ (e - 52).toNat) : ℚ)
          * (2 : ℚ) ^ (e - 52) := by
  unfold roundPos
  rw [floorLog2_unique p q hp hq e h1 h2]


/-! ## The uptime percentage -/

theorem foldl_successes (h : List CheckResult) (n : Int) :
    h.foldl (fun n res => if res.Success then n + 1 else n) n
      = n + ((h.countP (fun res => res.Success) : Nat) : Int) := by
  induction h generalizing n with
  | nil => simp
  | cons r h ih =>
    rw [List.foldl_cons, ih]
    by_cases hr : r.Success
    · simp [hr, List.countP_cons]
      ring
    · simp [hr, List.countP_cons]

/-- For a non-empty history of fewer than `2 ^ 53` entries the two conversions to
`float64` are exact, and the uptime is the rounded quotient times 100, rounded. -/
theorem calculateUptime_eq (h : List CheckResult) (hne : h ≠ []) (hlen : h.length < 2 ^ 53) :
    calculateUptime h
      = roundF64 (roundF64 (((h.countP (fun res => res.Success) : Nat) : ℚ) / (h.length : ℚ))
          * 100) := by
  have hl : h.length ≠ 0 := fun h0 => hne (List.length_eq_zero.1 h0)
  have hc : h.countP (fun res => res.Success) < 2 ^ 53 :=
    lt_of_le_of_lt (List.countP_le_length _) hlen
  unfold calculateUptime
  rw [if_neg hl]
  simp only [f64mul, f64div, f64ofInt, foldl_successes, zero_add, Int.cast_natCast]
  rw [roundF64_natCast _ hc, roundF64_natCast _ hlen]

/-- The uptime differs from the exact percentage by a relative error of at most
`2 ^ (-52) + 2 ^ (-106)`: two roundings of relative error `2 ^ (-53)` each. -/
theorem calculateUptime_err (h : List CheckResult) (hlen : h.length < 2 ^ 53) :
    |calculateUptime h
        - 100 * ((h.countP (fun res => res.Success) : Nat) : ℚ) / (h.length : ℚ)|
      ≤ 100 * ((h.countP (fun res => res.Success) : Nat) : ℚ) / (h.length : ℚ)
          * (1 / 2 ^ 52 + 1 / 2 ^ 106) := by
  by_cases hne : h = []
  · subst hne
    simp
  · rw [calculateUptime_eq h hne hlen]
    set x : ℚ := ((h.countP (fun res => res.Success) : Nat) : ℚ) / (h.length : ℚ) with hx
    have hx0 : 0 ≤ x := by positivity
    have e1 := roundF64_err x hx0
    set y : ℚ := roundF64 x with hy
    have hy0 : 0 ≤ y := by
      have := (abs_le.1 e1).1
      have hu : x / 2 ^ 53 ≤ x := div_le_self hx0 (by norm_num)
      linarith
    have e2 := roundF64_err (y * 100) (by positivity)
    have hyx : y ≤ x + x / 2 ^ 53 := by
      have := (abs_le.1 e1).2
      linarith
    have hrw : 100 * ((h.countP (fun res => res.Success) : Nat) : ℚ) / (h.length : ℚ)
        = 100 * x := by rw [hx]; ring
    rw [hrw]
    rw [abs_le] at e1 e2 ⊢
    constructor
    · nlinarith [e1.1, e1.2, e2.1, e2.2]
    · nlinarith [e1.1, e1.2, e2.1, e2.2]

/-- Two successes among three results: the `float64` computation gives
`4691249611844266 / 2 ^ 46`, one unit in the last place below the `float64` nearest to
`200 / 3`. -/
theorem calculateUptime_two_of_three (h : List CheckResult) (hlen : h.length = 3)
    (hc : h.countP (fun res => res.Success) = 2) :
    calculateUptime h = 2345624805922133 / 35184372088832 := by
  have hne : h ≠ [] := by
    intro h0
    rw [h0] at hlen
    simp at hlen
  rw [calculateUptime_eq h hne (by rw [hlen]; norm_num), hc, hlen]
  have r1 : roundF64 (((2 : Nat) : ℚ) / ((3 : Nat) : ℚ)) = 6004799503160661 / 9007199254740992 := by
    rw [roundF64_div_of_coprime 2 3 (by norm_num) (by norm_num) (by norm_num),
      roundPos_eq 2 3 (by norm_num) (by norm_num) (-1) (by norm_num) (by norm_num)]
    have : roundHalfEven (2 * 2 ^ (-(-1 - 52 : Int)).toNat) (3 * 2 ^ (-1 - 52 : Int).toNat)
        = 6004799503160661 := by decide
    rw [this]
    norm_num
  have r2 : (6004799503160661 / 9007199254740992 : ℚ) * 100
      = ((150119987579016525 : Nat) : ℚ) / ((2251799813685248 : Nat) : ℚ) := by norm_num
  rw [r1, r2, roundF64_div_of_coprime _ _ (by norm_num) (by norm_num) (by norm_num),
    roundPos_eq _ _ (by norm_num) (by norm_num) 6 (by norm_num) (by norm_num)]
  have : roundHalfEven (150119987579016525 * 2 ^ (-(6 - 52 : Int)).toNat)
      (2251799813685248 * 2 ^ (6 - 52 : Int).toNat) = 4691249611844266 := by decide
  rw [this]
  norm_num

@[simp] theorem Store.statusOf_UptimePerc (s : Store) (id : String) (t : Target) :
    (s.statusOf id t).UptimePerc = calculateUptime ((s.history.get? id).getD []) := rfl

/-- Counterexample to C3: one success, one failure and one success are recorded for the
fresh target `svc1`; the `UptimePerc` that `Status` reports is the `float64`
`4691249611844266 / 2 ^ 46 = 66.66666666666665719...`, not `200 / 3`. -/
theorem uptime_counterexample :
    ∃ st ∈ ([okAt "svc1" 1, failAt "svc1" 2, okAt "svc1" 3].foldl Store.Update
        (New [svc1])).Status,
      st.Target.ID = "svc1" ∧ st.UptimePerc = 2345624805922133 / 35184372088832 ∧
        st.UptimePerc ≠ 200 / 3 := by
  have hinv : Inv ([okAt "svc1" 1, failAt "svc1" 2, okAt "svc1" 3].foldl Store.Update
      (New [svc1])) := (Inv.init [svc1]).foldl_update _
  have hget : ([okAt "svc1" 1, failAt "svc1" 2, okAt "svc1" 3].foldl Store.Update
      (New [svc1])).targets.get? "svc1" = some svc1 := by decide
  have he := Store.status_entry hinv hget
  have hval : (([okAt "svc1" 1, failAt "svc1" 2, okAt "svc1" 3].foldl Store.Update
      (New [svc1])).statusOf "svc1" svc1).UptimePerc = 2345624805922133 / 35184372088832 := by
    rw [Store.statusOf_UptimePerc]
    exact calculateUptime_two_of_three _ (by decide) (by decide)
  refine ⟨_, he.1, he.2.1, hval, ?_⟩
  rw [hval]
  norm_num

/-- C3, amended: in every reachable state the one entry of `Status` for a known target
has as `UptimePerc` the result of `calculateUptime` on the retained history: `0` when the
history is empty, and otherwise the `float64` quotient of the number of successful entries
by the number of entries, times 100 in `float64`.  That value is within a relative error
of `2 ^ (-52) + 2 ^ (-106)` of `100 × successes / entries`, not always equal to it: after
one success, one failure and one success for a fresh target it is
`4691249611844266 / 2 ^ 46`, which is 66.7 to one decimal. -/
theorem uptime_reported (s : Store) (hs : Reachable s) (id : String)
    (hknown : (s.targets.get? id).isSome) :
    (∃ st ∈ s.Status, st.Target.ID = id ∧
        (∀ st' ∈ s.Status, st'.Target.ID = id → st' = st) ∧
        st.UptimePerc = calculateUptime ((s.history.get? id).getD []) ∧
        ((s.history.get? id).getD [] = [] → st.UptimePerc = 0) ∧
        ((s.history.get? id).getD [] ≠ [] → st.UptimePerc
          = f64mul (f64div ((((s.history.get? id).getD []).countP (fun res => res.Success) : Nat) : ℚ)
              ((((s.history.get? id).getD []).length : Nat) : ℚ)) 100) ∧
        |st.UptimePerc
            - 100 * ((((s.history.get? id).getD []).countP (fun res => res.Success) : Nat) : ℚ)
                / ((((s.history.get? id).getD []).length : Nat) : ℚ)|
          ≤ 100 * ((((s.history.get? id).getD []).countP (fun res => res.Success) : Nat) : ℚ)
                / ((((s.history.get? id).getD []).length : Nat) : ℚ)
              * (1 / 2 ^ 52 + 1 / 2 ^ 106)) ∧
      (∀ r1 r2 r3 : CheckResult, (s.history.get? id).getD [] = [] →
        r1.TargetID = id → r2.TargetID = id → r3.TargetID = id →
        r1.Success = true → r2.Success = false → r3.Success = true →
        ∃ st ∈ ([r1, r2, r3].foldl Store.Update s).Status, st.Target.ID = id ∧
          (∀ st' ∈ ([r1, r2, r3].foldl Store.Update s).Status, st'.Target.ID = id → st' = st) ∧
          st.UptimePerc = 4691249611844266 / 2 ^ 46 ∧
          (6665 : ℚ) / 100 ≤ st.UptimePerc ∧ st.UptimePerc < 6675 / 100) := by
  obtain ⟨t, ht⟩ := Option.isSome_iff_exists.1 hknown
  have hinv := hs.inv
  constructor
  · have he := Store.status_entry hinv ht
    have hlen : ((s.history.get? id).getD []).length < 2 ^ 53 := by
      have h100 : ((s.history.get? id).getD []).length ≤ historyLimit := by
        cases hh : s.history.get? id with
        | none => simp
        | some h => simpa using hinv.histLen id h hh
      exact lt_of_le_of_lt h100 (by norm_num [historyLimit])
    refine ⟨_, he.1, he.2.1, he.2.2, rfl, ?_, ?_, ?_⟩
    · intro hnil
      rw [Store.statusOf_UptimePerc, hnil]
      exact calculateUptime_nil
    · intro hne
      rw [Store.statusOf_UptimePerc, calculateUptime_eq _ hne hlen]
      rfl
    · rw [Store.statusOf_UptimePerc]
      exact calculateUptime_err _ hlen
  · intro r1 r2 r3 hfresh h1 h2 h3 g1 g2 g3
    have hrs : ∀ r ∈ [r1, r2, r3], r.TargetID = id := by
      intro r hr
      simp only [List.mem_cons, List.mem_singleton, List.not_mem_nil, or_false] at hr
      rcases hr with rfl | rfl | rfl <;> assumption
    have hh := Store.foldl_Update_history id [r1, r2, r3] hrs [] s (by simpa using hfresh)
    have hh' : (([r1, r2, r3].foldl Store.Update s).history.get? id).getD [] = [r3, r2, r1] := by
      rw [hh]
      simp [historyLimit]
    have ht' : ([r1, r2, r3].foldl Store.Update s).targets.get? id = some t := by
      rw [Store.foldl_Update_targets]; exact ht
    have he := Store.status_entry (hinv.foldl_update [r1, r2, r3]) ht'
    have hval : (([r1, r2, r3].foldl Store.Update s).statusOf id t).UptimePerc
        = 2345624805922133 / 35184372088832 := by
      rw [Store.statusOf_UptimePerc, hh']
      exact calculateUptime_two_of_three _ rfl (by simp [List.countP_cons, g1, g2, g3])
    refine ⟨_, he.1, he.2.1, he.2.2, ?_, ?_, ?_⟩
    · rw [hval]; norm_num
    · rw [hval]; norm_num
    · rw [hval]; norm_num

/-- Witness of the amended C3: the store of the counterexample. -/
theorem uptime_reported_witness :
    ∃ st ∈ ([okAt "svc1" 1, failAt "svc1" 2, okAt "svc1" 3].foldl Store.Update
        (New [svc1])).Status, st.Target.ID = "svc1" ∧
      (∀ st' ∈ ([okAt "svc1" 1, failAt "svc1" 2, okAt "svc1" 3].foldl Store.Update
        (New [svc1])).Status, st'.Target.ID = "svc1" → st' = st) ∧
      st.UptimePerc = 4691249611844266 / 2 ^ 46 ∧
      (6665 : ℚ) / 100 ≤ st.UptimePerc ∧ st.UptimePerc < 6675 / 100 :=
  (uptime_reported (New [svc1]) (Reachable.init _) "svc1" (by decide)).2
    (okAt "svc1" 1) (failAt "svc1" 2) (okAt "svc1" 3) (by decide) rfl rfl rfl rfl rfl rfl

/-! ## Reading the history -/

/-- C11: for a known target with retained history `h`, newest first, `History id limit`
returns the first `min limit (length of h)` entries of `h` when `limit > 0` and all of `h`
when `limit ≤ 0`, in the order of `h`. -/
theorem history_limit (s : Store) (id : String) (limit : Int)
    (hknown : (s.targets.get? id).isSome) :
    s.History id limit
      = Except.ok (if limit > 0 then ((s.history.get? id).getD []).take
            (min limit.toNat ((s.history.get? id).getD []).length)
          else (s.history.get? id).getD []) := by
  obtain ⟨t, ht⟩ := Option.isSome_iff_exists.1 hknown
  unfold Store.History
  rw [ht]
  simp only
  congr 1
  by_cases hpos : limit > 0
  · rw [if_pos hpos]
    by_cases hlt : limit < (((s.history.get? id).getD []).length : Int)
    · rw [if_pos ⟨hpos, hlt⟩]
      congr 1
      omega
    · rw [if_neg (fun h => hlt h.2)]
      have : min limit.toNat ((s.history.get? id).getD []).length
          = ((s.history.get? id).getD []).length := by omega
      rw [this, List.take_length]
  · rw [if_neg hpos, if_neg (fun h => hpos h.1)]

/-- C12: `History id limit` returns an error exactly when `id` has no target definition,
whatever the state and the limit; so it fails for an id that has recorded results and no
definition, and it returns the empty list for a known target without results. -/
theorem history_error_iff (s : Store) (id : String) (limit : Int) :
    (s.History id limit = Except.error "target no encontrado" ↔ s.targets.get? id = none) ∧
      ((∃ out, s.History id limit = Except.ok out) ↔ (s.targets.get? id).isSome) ∧
      (s.targets.get? id = none → (s.history.get? id).getD [] ≠ [] →
        s.History id limit = Except.error "target no encontrado") ∧
      ((s.targets.get? id).isSome → (s.history.get? id).getD [] = [] →
        s.History id limit = Except.ok []) := by
  cases ht : s.targets.get? id with
  | none => simp [Store.History, ht]
  | some t =>
    refine ⟨by simp [Store.History, ht], by simp [Store.History, ht], by simp, ?_⟩
    intro _ hnil
    simp [Store.History, ht, hnil]

/-- Witness of C12: `svc2` has a result and no definition, `svc1` a definition and no
result. -/
theorem history_error_iff_witness :
    ((New [svc1]).Update (failAt "svc2" 4)).History "svc2" 10
        = Except.error "target no encontrado" ∧
      ((New [svc1]).Update (failAt "svc2" 4)).History "svc1" 10 = Except.ok [] :=
  ⟨(history_error_iff ((New [svc1]).Update (failAt "svc2" 4)) "svc2" 10).2.2.1 (by decide)
      (by decide),
    (history_error_iff ((New [svc1]).Update (failAt "svc2" 4)) "svc1" 10).2.2.2 (by decide)
      (by decide)⟩

/-! ## Validation of targets -/

/-- C18: `validateTarget` returns no error exactly when the name is not empty, the kind is
`http` with a non-empty URL or `tcp` with a non-empty host and a non-zero port, frequency
and timeout are positive and the timeout does not exceed the frequency; a target of any
other kind is rejected. -/
theorem validateTarget_accepts_iff (target : Target) :
    validateTarget target = none ↔
      target.Name ≠ "" ∧
        ((target.Kind = "http" ∧ target.URL ≠ "") ∨
          (target.Kind = "tcp" ∧ target.Host ≠ "" ∧ target.Port ≠ 0)) ∧
        0 < target.Frequency ∧ 0 < target.Timeout ∧ target.Timeout ≤ target.Frequency := by
  unfold validateTarget
  by_cases hname : target.Name = ""
  · simp [hname]
  · by_cases hhttp : target.Kind = "http"
    · have hne : ¬ target.Kind = "tcp" := by rw [hhttp]; decide
      by_cases hurl : target.URL = ""
      · simp [hname, hhttp, TargetHTTP, hurl]
      · by_cases hf : target.Frequency ≤ 0
        · simp [hname, hhttp, TargetHTTP, hurl, hf]
        · by_cases ht : target.Timeout ≤ 0
          · simp [hname, hhttp, TargetHTTP, hurl, hf, ht]
          · simp [hname, hhttp, TargetHTTP, hurl, hf, ht]
            omega
    · by_cases htcp : target.Kind = "tcp"
      · by_cases hhost : target.Host = ""
        · simp [hname, htcp, TargetHTTP, TargetTCP, hhost]
        · by_cases hport : target.Port = 0
          · simp [hname, htcp, TargetHTTP, TargetTCP, hhost, hport]
          · by_cases hf : target.Frequency ≤ 0
            · simp [hname, htcp, TargetHTTP, TargetTCP, hhost, hport, hf]
            · by_cases ht : target.Timeout ≤ 0
              · simp [hname, htcp, TargetHTTP, TargetTCP, hhost, hport, hf, ht]
              · simp [hname, htcp, TargetHTTP, TargetTCP, hhost, hport, hf, ht]
                omega
      · simp [hname, hhttp, htcp, TargetHTTP, TargetTCP]

/-! ## The scheduler -/

section UpdateAt

variable {α : Type}

theorem length_updateAt (f : α → α) (k : Nat) (l : List α) :
    (updateAt f k l).length = l.length := by
  induction l generalizing k with
  | nil => cases k <;> rfl
  | cons a l ih =>
    cases k with
    | zero => rfl
    | succ k => simp [updateAt, ih]

theorem getElem?_updateAt (f : α → α) (k j : Nat) (l : List α) :
    (updateAt f k l)[j]? = if j = k then (l[j]?).map f else l[j]? := by
  induction l generalizing k j with
  | nil => cases k <;> simp [updateAt]
  | cons a l ih =>
    cases k with
    | zero =>
      cases j with
      | zero => simp [updateAt]
      | succ j => simp [updateAt]
    | succ k =>
      cases j with
      | zero => simp [updateAt]
      | succ j => simp [updateAt, ih]

theorem mem_updateAt (f : α → α) (k : Nat) (l : List α) (x : α) (hx : x ∈ updateAt f k l) :
    x ∈ l ∨ ∃ y ∈ l, x = f y := by
  induction l generalizing k with
  | nil => cases k <;> simp [updateAt] at hx
  | cons a l ih =>
    cases k with
    | zero =>
      simp only [updateAt, List.mem_cons] at hx
      rcases hx with rfl | hx
      · exact Or.inr ⟨a, List.mem_cons_self a l, rfl⟩
      · exact Or.inl (List.mem_cons_of_mem a hx)
    | succ k =>
      simp only [updateAt, List.mem_cons] at hx
      rcases hx with rfl | hx
      · exact Or.inl (List.mem_cons_self _ l)
      · rcases ih k hx with h | ⟨y, hy, rfl⟩
        · exact Or.inl (List.mem_cons_of_mem a h)
        · exact Or.inr ⟨y, List.mem_cons_of_mem a hy, rfl⟩

theorem updateAt_eq_self (f : α → α) (k : Nat) (l : List α) (x : α) (hk : l[k]? = some x)
    (hx : f x = x) : updateAt f k l = l := by
  induction l generalizing k with
  | nil => simp at hk
  | cons a l ih =>
    cases k with
    | zero =>
      simp at hk
      subst hk
      simp [updateAt, hx]
    | succ k =>
      simp at hk
      simp [updateAt, ih k hk]

end UpdateAt

/-- A change of the trigger channels keeps the loops that are live. -/
theorem Scheduler.liveFor_updateAt (s : Scheduler) (f : Loop → Loop) (k : Nat)
    (hf : ∀ l, (f l).target = l.target ∧ (f l).cancelled = l.cancelled) (id : String) (j : Nat) :
    Scheduler.liveFor { s with loops := updateAt f k s.loops } id j ↔ s.liveFor id j := by
  unfold Scheduler.liveFor
  simp only [getElem?_updateAt]
  by_cases hjk : j = k
  · simp only [hjk, if_true]
    cases hl : s.loops[k]? with
    | none => simp
    | some l =>
      simp only [Option.map_some', Option.some.injEq]
      constructor
      · rintro ⟨l', rfl, h1, h2⟩
        exact ⟨l, rfl, by rw [← (hf l).2]; exact h1, by rw [← (hf l).1]; exact h2⟩
      · rintro ⟨l', hl', h1, h2⟩
        subst hl'
        exact ⟨f l, rfl, by rw [(hf l).2]; exact h1, by rw [(hf l).1]; exact h2⟩
  · simp only [hjk, if_false]

theorem Scheduler.inv_init : Scheduler.Inv Scheduler.New where
  registered := by intro id k h; simp [Scheduler.New] at h
  live := by
    rintro id k ⟨l, hl, _⟩
    simp [Scheduler.New] at hl
  capacity := by intro l hl; simp [Scheduler.New] at hl
  idle := by intro _; rfl

theorem Scheduler.inv_cancelWorker {s : Scheduler} (hs : s.Inv) (id : String) :
    (s.cancelWorker id).Inv := by
  unfold Scheduler.cancelWorker
  cases hw : s.workers.get? id with
  | none => exact hs
  | some k =>
    have hk := hs.registered id k hw
    obtain ⟨lk, hlk, hlive, hid⟩ := hk
    refine ⟨?_, ?_, ?_, ?_⟩
    · intro id' k' h
      simp only at h
      have hne : id' ≠ id := by
        intro heq
        rw [heq, GoMap.get?_delete_self] at h
        cases h
      rw [GoMap.get?_delete_ne _ hne] at h
      obtain ⟨l', hl', h1, h2⟩ := hs.registered id' k' h
      have hkk : k' ≠ k := by
        intro heq
        rw [heq, hlk] at hl'
        cases hl'
        exact hne (h2.symm.trans hid)
      exact ⟨l', by simp only [getElem?_updateAt, if_neg hkk]; exact hl', h1, h2⟩
    · rintro id' k' ⟨l', hl', h1, h2⟩
      simp only [getElem?_updateAt] at hl'
      by_cases hkk : k' = k
      · rw [if_pos hkk, hkk, hlk] at hl'
        simp only [Option.map_some', Option.some.injEq] at hl'
        rw [← hl'] at h1
        simp [Loop.cancel] at h1
      · rw [if_neg hkk] at hl'
        have hreg := hs.live id' k' ⟨l', hl', h1, h2⟩
        have hne : id' ≠ id := by
          intro heq
          rw [heq, hw] at hreg
          cases hreg
          exact hkk rfl
        simp only
        rw [GoMap.get?_delete_ne _ hne]
        exact hreg
    · intro l hl
      rcases mem_updateAt _ _ _ _ hl with h | ⟨y, hy, rfl⟩
      · exact hs.capacity l h
      · exact hs.capacity y hy
    · intro hst
      have := hs.idle hst
      simp [GoMap.get?, this, lookupList] at hw

theorem Scheduler.inv_spawnWorkerLocked {s : Scheduler} (hs : s.Inv) (target : Target)
    (hnone : s.workers.get? target.ID = none) (hst : s.started = true) :
    (s.spawnWorkerLocked target).Inv := by
  refine ⟨?_, ?_, ?_, ?_⟩
  · intro id k h
    simp only [Scheduler.spawnWorkerLocked] at h
    by_cases hid : id = target.ID
    · subst hid
      rw [GoMap.get?_set_self] at h
      cases h
      exact ⟨{ target := target, cancelled := false, pending := 0 },
        by simp [Scheduler.spawnWorkerLocked], rfl, rfl⟩
    · rw [GoMap.get?_set_ne _ _ hid] at h
      obtain ⟨l, hl, h1, h2⟩ := hs.registered id k h
      have hlt : k < s.loops.length := by
        by_contra hcon
        rw [List.getElem?_eq_none (Nat.le_of_not_lt hcon)] at hl
        cases hl
      exact ⟨l, by simp only [Scheduler.spawnWorkerLocked]
                   rw [List.getElem?_append_left hlt]; exact hl, h1, h2⟩
  · rintro id k ⟨l, hl, h1, h2⟩
    simp only [Scheduler.spawnWorkerLocked] at hl ⊢
    by_cases hlt : k < s.loops.length
    · rw [List.getElem?_append_left hlt] at hl
      have hreg := hs.live id k ⟨l, hl, h1, h2⟩
      have hid : id ≠ target.ID := by
        intro heq
        rw [heq, hnone] at hreg
        cases hreg
      rw [GoMap.get?_set_ne _ _ hid]
      exact hreg
    · rw [List.getElem?_append_right (Nat.le_of_not_lt hlt)] at hl
      have hk : k = s.loops.length := by
        by_contra hne
        have : 1 ≤ k - s.loops.length := by omega
        rw [List.getElem?_eq_none (by simpa using this)] at hl
        cases hl
      subst hk
      simp at hl
      subst hl
      simp only at h2
      rw [← h2, GoMap.get?_set_self]
  · intro l hl
    simp only [Scheduler.spawnWorkerLocked, List.mem_append, List.mem_singleton] at hl
    rcases hl with h | rfl
    · exact hs.capacity l h
    · exact Nat.zero_le _
  · intro h
    simp only [Scheduler.spawnWorkerLocked] at h
    rw [hst] at h
    cases h

theorem Scheduler.cancelWorker_started (s : Scheduler) (id : String) :
    (s.cancelWorker id).started = s.started := by
  unfold Scheduler.cancelWorker
  cases s.workers.get? id <;> rfl

theorem Scheduler.cancelWorker_workers_self (s : Scheduler) (id : String) :
    (s.cancelWorker id).workers.get? id = none := by
  unfold Scheduler.cancelWorker
  cases hw : s.workers.get? id with
  | none => exact hw
  | some k => exact GoMap.get?_delete_self _ _

theorem Scheduler.cancelWorker_workers_ne (s : Scheduler) {id id' : String} (h : id' ≠ id) :
    (s.cancelWorker id).workers.get? id' = s.workers.get? id' := by
  unfold Scheduler.cancelWorker
  cases hw : s.workers.get? id with
  | none => rfl
  | some k => exact GoMap.get?_delete_ne _ h

theorem Scheduler.inv_UpsertTarget {s : Scheduler} (hs : s.Inv) (target : Target) :
    (s.UpsertTarget target).Inv := by
  unfold Scheduler.UpsertTarget
  simp only
  split
  · exact Scheduler.inv_cancelWorker hs _
  · rename_i hst
    have hst' : (s.cancelWorker target.ID).started = true := by simpa using hst
    exact Scheduler.inv_spawnWorkerLocked (Scheduler.inv_cancelWorker hs _) target
      (Scheduler.cancelWorker_workers_self s _) hst'

theorem Scheduler.inv_foldl_UpsertTarget (targets : List Target) {s : Scheduler} (hs : s.Inv) :
    (targets.foldl Scheduler.UpsertTarget s).Inv := by
  induction targets generalizing s with
  | nil => exact hs
  | cons t ts ih => exact ih (Scheduler.inv_UpsertTarget hs t)

theorem Scheduler.inv_Start {s : Scheduler} (hs : s.Inv) (store : Store) :
    (s.Start store).Inv := by
  unfold Scheduler.Start
  apply Scheduler.inv_foldl_UpsertTarget
  exact ⟨hs.registered, hs.live, hs.capacity, by intro h; cases h⟩

theorem Scheduler.inv_Trigger {s : Scheduler} (hs : s.Inv) (id : String) :
    (s.Trigger id).2.Inv := by
  unfold Scheduler.Trigger
  cases hw : s.workers.get? id with
  | none => exact hs
  | some k =>
    have hf : ∀ l : Loop, (Loop.trySend l).target = l.target
        ∧ (Loop.trySend l).cancelled = l.cancelled := by
      intro l
      unfold Loop.trySend
      split <;> exact ⟨rfl, rfl⟩
    refine ⟨?_, ?_, ?_, hs.idle⟩
    · intro id' k' h
      exact (Scheduler.liveFor_updateAt s _ k hf id' k').2 (hs.registered id' k' h)
    · intro id' k' h
      exact hs.live id' k' ((Scheduler.liveFor_updateAt s _ k hf id' k').1 h)
    · intro l hl
      rcases mem_updateAt _ _ _ _ hl with h | ⟨y, hy, rfl⟩
      · exact hs.capacity l h
      · unfold Loop.trySend
        split
        · rename_i hlt
          simpa using hlt
        · exact hs.capacity y hy

theorem Scheduler.inv_receiveTrigger {s : Scheduler} (hs : s.Inv) (k : Nat) :
    (s.receiveTrigger k).2.Inv := by
  unfold Scheduler.receiveTrigger
  cases hl : s.loops[k]? with
  | none => exact hs
  | some l =>
    simp only
    split
    · have hf : ∀ x : Loop, ({ x with pending := x.pending - 1 } : Loop).target = x.target
          ∧ ({ x with pending := x.pending - 1 } : Loop).cancelled = x.cancelled :=
        fun x => ⟨rfl, rfl⟩
      refine ⟨?_, ?_, ?_, hs.idle⟩
      · intro id' k' h
        exact (Scheduler.liveFor_updateAt s _ k hf id' k').2 (hs.registered id' k' h)
      · intro id' k' h
        exact hs.live id' k' ((Scheduler.liveFor_updateAt s _ k hf id' k').1 h)
      · intro x hx
        rcases mem_updateAt _ _ _ _ hx with h | ⟨y, hy, rfl⟩
        · exact hs.capacity x h
        · exact le_trans (Nat.sub_le _ _) (hs.capacity y hy)
    · exact hs

theorem Scheduler.inv_of_reachable {s : Scheduler} (hs : s.Reachable) : s.Inv := by
  induction hs with
  | init => exact Scheduler.inv_init
  | step op _ ih =>
    cases op with
    | start store => exact Scheduler.inv_Start ih store
    | upsert t => exact Scheduler.inv_UpsertTarget ih t
    | remove id => exact Scheduler.inv_cancelWorker ih id
    | trigger id => exact Scheduler.inv_Trigger ih id
    | receive k => exact Scheduler.inv_receiveTrigger ih k


/-! ## One loop per target -/

/-- C14: in every reachable state of the scheduler a loop that was spawned for an id and
is not cancelled is the loop registered for that id in `workers`, so there is at most one
per id, and a registered loop is such a loop.  `UpsertTarget` for an id with a registered
loop `k` is `spawnWorkerLocked` applied to the state in which `cancelWorker` has cancelled
`k` and removed it from the map, a state without any live loop for the id; afterwards the
only live loop for the id is the new one, with the new definition. -/
theorem one_loop_per_target (s : Scheduler) (hs : s.Reachable) (target : Target) :
    ((∀ id j, s.liveFor id j → s.workers.get? id = some j) ∧
        (∀ id j j', s.liveFor id j → s.liveFor id j' → j = j') ∧
        (∀ id j, s.workers.get? id = some j → s.liveFor id j)) ∧
      ∀ k, s.workers.get? target.ID = some k →
        (s.UpsertTarget target = (s.cancelWorker target.ID).spawnWorkerLocked target ∧
          (∃ l, (s.cancelWorker target.ID).loops[k]? = some l ∧ l.cancelled = true) ∧
          (s.cancelWorker target.ID).workers.get? target.ID = none ∧
          (∀ j, ¬ (s.cancelWorker target.ID).liveFor target.ID j)) ∧
        ((s.UpsertTarget target).workers.get? target.ID = some s.loops.length ∧
          (s.UpsertTarget target).loops[s.loops.length]?
            = some { target := target, cancelled := false, pending := 0 } ∧
          (∃ l, (s.UpsertTarget target).loops[k]? = some l ∧ l.cancelled = true) ∧
          ∀ j, (s.UpsertTarget target).liveFor target.ID j → j = s.loops.length) := by
  have hinv := Scheduler.inv_of_reachable hs
  have hone : ∀ id j j', s.liveFor id j → s.liveFor id j' → j = j' := by
    intro id j j' hj hj'
    have h1 := hinv.live id j hj
    have h2 := hinv.live id j' hj'
    rw [h1] at h2
    cases h2
    rfl
  refine ⟨⟨hinv.live, hone, hinv.registered⟩, ?_⟩
  intro k hreg
  have hinv := Scheduler.inv_of_reachable hs
  have hstarted : s.started = true := by
    by_contra hcon
    have hidle := hinv.idle (by simpa using hcon)
    simp [GoMap.get?, hidle, lookupList] at hreg
  have hcstarted : (s.cancelWorker target.ID).started = true := by
    rw [Scheduler.cancelWorker_started]; exact hstarted
  have hupsert : s.UpsertTarget target
      = (s.cancelWorker target.ID).spawnWorkerLocked target := by
    unfold Scheduler.UpsertTarget
    simp [hcstarted]
  have hcinv := Scheduler.inv_cancelWorker hinv target.ID
  have huinv := Scheduler.inv_UpsertTarget hinv target
  obtain ⟨lk, hlk, _, _⟩ := hinv.registered _ _ hreg
  have hklt : k < s.loops.length := by
    by_contra hcon
    rw [List.getElem?_eq_none (Nat.le_of_not_lt hcon)] at hlk
    cases hlk
  have hcloops : (s.cancelWorker target.ID).loops = updateAt Loop.cancel k s.loops := by
    unfold Scheduler.cancelWorker
    rw [hreg]
  have hcancelled : (s.cancelWorker target.ID).loops[k]? = some lk.cancel := by
    rw [hcloops, getElem?_updateAt, if_pos rfl, hlk]
    rfl
  have hclen : (s.cancelWorker target.ID).loops.length = s.loops.length := by
    rw [hcloops, length_updateAt]
  have hreg' : (s.UpsertTarget target).workers.get? target.ID = some s.loops.length := by
    rw [hupsert]
    simp [Scheduler.spawnWorkerLocked, hclen]
  refine ⟨⟨hupsert, ⟨_, hcancelled, rfl⟩,
    Scheduler.cancelWorker_workers_self s _, ?_⟩, ⟨hreg', ?_, ⟨lk.cancel, ?_, rfl⟩, ?_⟩⟩
  · intro j hj
    have := hcinv.live _ _ hj
    rw [Scheduler.cancelWorker_workers_self] at this
    cases this
  · rw [hupsert]
    simp only [Scheduler.spawnWorkerLocked]
    rw [List.getElem?_append_right (by rw [hclen]), hclen]
    simp
  · rw [hupsert]
    simp only [Scheduler.spawnWorkerLocked]
    rw [List.getElem?_append_left (by rw [hclen]; exact hklt)]
    exact hcancelled
  · intro j hj
    have := huinv.live _ _ hj
    rw [hreg'] at this
    cases this
    rfl

/-- Witness of C14: the definition of `svc1` is replaced on a started scheduler. -/
theorem one_loop_per_target_witness :
    (Scheduler.New.Start (New [svc1])).Reachable ∧
      (Scheduler.New.Start (New [svc1])).workers.get? svc2.ID = none ∧
      ((Scheduler.New.Start (New [svc1])).UpsertTarget { svc1 with Frequency := 10 }).loops
        = [{ target := svc1, cancelled := true, pending := 0 },
            { target := { svc1 with Frequency := 10 }, cancelled := false, pending := 0 }] ∧
      ((Scheduler.New.Start (New [svc1])).UpsertTarget
          { svc1 with Frequency := 10 }).workers.get? "svc1" = some 1 :=
  ⟨Scheduler.Reachable.step (SchedOp.start (New [svc1])) Scheduler.Reachable.init, by decide,
    by decide,
    (((one_loop_per_target (Scheduler.New.Start (New [svc1]))
      (Scheduler.Reachable.step (SchedOp.start (New [svc1])) Scheduler.Reachable.init)
      { svc1 with Frequency := 10 }).2 0 (by decide)).2).1⟩


/-! ## Coalesced triggers -/

theorem Scheduler.Trigger_pending (s : Scheduler) (hs : s.Inv) (id : String) (k : Nat)
    (hreg : s.workers.get? id = some k) :
    (s.Trigger id).1 = true ∧ (s.Trigger id).2.workers = s.workers ∧
      ∃ l, (s.Trigger id).2.loops[k]? = some l ∧ l.pending = 1 := by
  obtain ⟨l, hl, _, _⟩ := hs.registered id k hreg
  have hcap : l.pending ≤ 1 := hs.capacity l (List.mem_iff_getElem?.2 ⟨k, hl⟩)
  unfold Scheduler.Trigger
  rw [hreg]
  refine ⟨rfl, rfl, l.trySend, ?_, ?_⟩
  · simp only [getElem?_updateAt, if_true, hl]
    rfl
  · unfold Loop.trySend triggerCapacity
    split
    · simp only
      omega
    · omega

theorem Scheduler.triggerTimes_reachable (s : Scheduler) (hs : s.Reachable) (id : String)
    (n : Nat) : (s.triggerTimes id n).Reachable := by
  induction n with
  | zero => exact hs
  | succ n ih => exact Scheduler.Reachable.step (SchedOp.trigger id) ih

theorem Scheduler.triggerTimes_workers (s : Scheduler) (id : String) (n : Nat) :
    (s.triggerTimes id n).workers = s.workers := by
  induction n with
  | zero => rfl
  | succ n ih =>
    show ((s.triggerTimes id n).Trigger id).2.workers = s.workers
    rw [← ih]
    unfold Scheduler.Trigger
    cases (s.triggerTimes id n).workers.get? id <;> rfl

theorem Scheduler.receiveTrigger_empty (s : Scheduler) (k : Nat) (l : Loop)
    (hl : s.loops[k]? = some l) (hp : l.pending = 0) : s.receiveTrigger k = (false, s) := by
  unfold Scheduler.receiveTrigger
  rw [hl]
  simp [hp]

/-- C15: in every reachable state of the scheduler a trigger channel buffers at most one
signal; for a registered loop, a `Trigger` that finds the signal pending leaves the state
as it is, and after one or more calls of `Trigger` in a row exactly one signal is pending:
the loop takes it once (one extra probe) and finds the channel empty the next time. -/
theorem trigger_coalesced (s : Scheduler) (hs : s.Reachable) :
    (∀ l ∈ s.loops, l.pending ≤ 1) ∧
      ∀ id k, s.workers.get? id = some k →
        (∀ l, s.loops[k]? = some l → l.pending = 1 → s.Trigger id = (true, s)) ∧
        ∀ n, (∃ l, (s.triggerTimes id (n + 1)).loops[k]? = some l ∧ l.pending = 1) ∧
          ((s.triggerTimes id (n + 1)).receiveTrigger k).1 = true ∧
          (∃ l, ((s.triggerTimes id (n + 1)).receiveTrigger k).2.loops[k]? = some l ∧
            l.pending = 0) ∧
          (((s.triggerTimes id (n + 1)).receiveTrigger k).2.receiveTrigger k).1 = false := by
  have hinv := Scheduler.inv_of_reachable hs
  refine ⟨hinv.capacity, ?_⟩
  intro id k hreg
  constructor
  · intro l hl hp
    unfold Scheduler.Trigger
    rw [hreg]
    have hsame : l.trySend = l := by
      unfold Loop.trySend triggerCapacity
      rw [if_neg (by omega)]
    show (true, ({ s with loops := updateAt Loop.trySend k s.loops } : Scheduler)) = (true, s)
    rw [updateAt_eq_self Loop.trySend k s.loops l hl hsame]
  · intro n
    have hr := Scheduler.triggerTimes_reachable s hs id n
    have hw : (s.triggerTimes id n).workers.get? id = some k := by
      rw [Scheduler.triggerTimes_workers]; exact hreg
    obtain ⟨_, _, l, hl, hp⟩ :=
      Scheduler.Trigger_pending _ (Scheduler.inv_of_reachable hr) id k hw
    have hl' : (s.triggerTimes id (n + 1)).loops[k]? = some l := hl
    have hrecv : (s.triggerTimes id (n + 1)).receiveTrigger k
        = (true, { s.triggerTimes id (n + 1) with
            loops := updateAt (fun x => { x with pending := x.pending - 1 }) k
              (s.triggerTimes id (n + 1)).loops }) := by
      unfold Scheduler.receiveTrigger
      rw [hl']
      simp [hp]
    have hafter : ((s.triggerTimes id (n + 1)).receiveTrigger k).2.loops[k]?
        = some { l with pending := 0 } := by
      rw [hrecv]
      simp only [getElem?_updateAt, if_true, hl', Option.map_some', hp]
    refine ⟨⟨l, hl', hp⟩, by rw [hrecv], ⟨_, hafter, rfl⟩, ?_⟩
    rw [Scheduler.receiveTrigger_empty _ k _ hafter rfl]

/-- Witness of C15: two calls of `Trigger` for `svc1` before its loop takes a signal. -/
theorem trigger_coalesced_witness :
    (Scheduler.New.Start (New [svc1])).Reachable ∧
      (Scheduler.New.Start (New [svc1])).workers.get? "svc1" = some 0 ∧
      (∃ l, ((Scheduler.New.Start (New [svc1])).triggerTimes "svc1" 2).loops[0]? = some l ∧
        l.pending = 1) ∧
      (((Scheduler.New.Start (New [svc1])).triggerTimes "svc1" 2).receiveTrigger 0).1 = true ∧
      (∃ l, (((Scheduler.New.Start (New [svc1])).triggerTimes "svc1" 2).receiveTrigger
          0).2.loops[0]? = some l ∧ l.pending = 0) ∧
      ((((Scheduler.New.Start (New [svc1])).triggerTimes "svc1" 2).receiveTrigger
        0).2.receiveTrigger 0).1 = false :=
  ⟨Scheduler.Reachable.step (SchedOp.start (New [svc1])) Scheduler.Reachable.init, by decide,
    ((trigger_coalesced (Scheduler.New.Start (New [svc1]))
      (Scheduler.Reachable.step (SchedOp.start (New [svc1])) Scheduler.Reachable.init)).2
      "svc1" 0 (by decide)).2 1⟩

/-! ## Rejected mutations and the seed file -/

/-- C16: `Trigger id` returns true exactly when a loop is registered for `id`; for an id
without registered loop it returns false and leaves the state as it is; in no case does
it change `workers` or spawn a loop. -/
theorem trigger_result (s : Scheduler) (id : String) :
    ((s.Trigger id).1 = true ↔ (s.workers.get? id).isSome) ∧
      (s.workers.get? id = none → s.Trigger id = (false, s)) ∧
      (s.Trigger id).2.workers = s.workers ∧
      (s.Trigger id).2.started = s.started ∧
      (s.Trigger id).2.loops.length = s.loops.length := by
  unfold Scheduler.Trigger
  cases hw : s.workers.get? id with
  | none => simp
  | some k => simp [length_updateAt]

/-- Witness of C16: a trigger for `svc2`, which has no loop. -/
theorem trigger_result_witness :
    ((Scheduler.New.Start (New [svc1])).Trigger "svc2")
      = (false, Scheduler.New.Start (New [svc1])) :=
  (trigger_result (Scheduler.New.Start (New [svc1])) "svc2").2.1 (by decide)

theorem validateTarget_ID (target : Target) (id : String) :
    validateTarget { target with ID := id } = validateTarget target := rfl

/-- C19: `CreateTarget` and `UpdateTarget` with a target that `validateTarget` rejects,
`UpdateTarget` with an empty id and `DeleteTarget` with an empty id return an error and
leave the service as it is: nothing is called on the repository, the store or the
scheduler.  When the repository answers with an error, the three methods return an error
and the store and the scheduler are unchanged. -/
theorem rejected_mutation_changes_nothing (s : TargetService) (target : Target)
    (uuid : String) (repoErr : Option String) (err : String) (id : String) :
    (∀ e, validateTarget target = some e →
        s.CreateTarget target uuid repoErr = (Except.error e, s)) ∧
      (∀ e, validateTarget target = some e →
        ∃ e', s.UpdateTarget target repoErr = (Except.error e', s)) ∧
      (target.ID = "" → s.UpdateTarget target repoErr = (Except.error "id requerido", s)) ∧
      s.DeleteTarget "" repoErr = (some "id requerido", s) ∧
      ((∃ e, (s.CreateTarget target uuid (some err)).1 = Except.error e) ∧
        (s.CreateTarget target uuid (some err)).2.store = s.store ∧
        (s.CreateTarget target uuid (some err)).2.scheduler = s.scheduler) ∧
      ((∃ e, (s.UpdateTarget target (some err)).1 = Except.error e) ∧
        (s.UpdateTarget target (some err)).2.store = s.store ∧
        (s.UpdateTarget target (some err)).2.scheduler = s.scheduler) ∧
      ((∃ e, (s.DeleteTarget id (some err)).1 = some e) ∧
        (s.DeleteTarget id (some err)).2.store = s.store ∧
        (s.DeleteTarget id (some err)).2.scheduler = s.scheduler) := by
  have hv : validateTarget (if target.ID = "" then { target with ID := uuid } else target)
      = validateTarget target := by
    split
    · exact validateTarget_ID target uuid
    · rfl
  refine ⟨?_, ?_, ?_, ?_, ?_, ?_, ?_⟩
  · intro e he
    simp only [TargetService.CreateTarget, hv, he]
  · intro e he
    by_cases hid : target.ID = ""
    · exact ⟨"id requerido", by simp [TargetService.UpdateTarget, hid]⟩
    · exact ⟨e, by simp [TargetService.UpdateTarget, hid, he]⟩
  · intro hid
    simp [TargetService.UpdateTarget, hid]
  · simp [TargetService.DeleteTarget]
  · simp only [TargetService.CreateTarget, hv]
    cases validateTarget target with
    | none => simp
    | some e => simp
  · unfold TargetService.UpdateTarget
    by_cases hid : target.ID = ""
    · simp [hid]
    · cases hval : validateTarget target with
      | none => simp [hid]
      | some e => simp [hid]
  · unfold TargetService.DeleteTarget
    by_cases hid : id = ""
    · simp [hid]
    · simp [hid]

/-- C20 fails on the code: the seed entry `rawFast` (a check every second, no timeout) is
accepted by `mapTarget` and by `Load`, and the target it yields has the default timeout of
5 s, which exceeds its frequency of 1 s; `validateTarget` rejects that target. -/
theorem mapTarget_timeout_exceeds_frequency :
    mapTarget rawFast = Except.ok fast ∧ loadTargets [rawFast] = Except.ok [fast] ∧
      fast.Frequency < fast.Timeout ∧
      validateTarget fast = some "timeout no puede ser mayor que frequency" := by
  decide

theorem mapTarget_durations_positive (raw : rawTarget) (target : Target)
    (h : mapTarget raw = Except.ok target) : 0 < target.Frequency ∧ 0 < target.Timeout := by
  unfold mapTarget at h
  by_cases hid : raw.ID = ""
  · simp [hid] at h
  · by_cases hkind : raw.Kind = ""
    · simp [hid, hkind] at h
    · simp only [hid, hkind, if_false] at h
      split at h
      · cases h
      · cases h
        constructor
        · show 0 < (if raw.Frequency ≤ 0 then 30 * Second else raw.Frequency)
          split
          · decide
          · omega
        · show 0 < (if raw.Timeout ≤ 0 then 5 * Second else raw.Timeout)
          split
          · decide
          · omega

/-! ## The order of the listings -/

section Sorting

variable {α : Type} (key : α → String)

theorem orderedInsert_strict (a : α) (l : List α)
    (hl : l.Pairwise (fun x y => key x < key y)) (ha : ∀ b ∈ l, key b ≠ key a) :
    (List.orderedInsert (fun x y => (key x).toList < (key y).toList) a l).Pairwise
      (fun x y => key x < key y) := by
  induction l with
  | nil => simp
  | cons b l ih =>
    rw [List.pairwise_cons] at hl
    rw [List.orderedInsert]
    split
    · rename_i hab
      have hab' : key a < key b := String.lt_iff_toList_lt.2 hab
      rw [List.pairwise_cons]
      refine ⟨?_, List.pairwise_cons.2 hl⟩
      intro x hx
      rcases List.mem_cons.1 hx with rfl | hx
      · exact hab'
      · exact lt_trans hab' (hl.1 x hx)
    · rename_i hab
      have hab' : ¬ key a < key b := fun h => hab (String.lt_iff_toList_lt.1 h)
      have hba : key b < key a :=
        lt_of_le_of_ne (not_lt.1 hab') (ha b (List.mem_cons_self b l))
      rw [List.pairwise_cons]
      refine ⟨?_, ih hl.2 (fun x hx => ha x (List.mem_cons_of_mem b hx))⟩
      intro x hx
      rcases (List.mem_orderedInsert _).1 hx with rfl | hx
      · exact hba
      · exact hl.1 x hx

/-- Sorting a list whose keys are pairwise different puts the keys in strictly ascending
order. -/
theorem sortSlice_strict (l : List α) (hl : (l.map key).Nodup) :
    (sortSlice key l).Pairwise (fun x y => key x < key y) := by
  induction l with
  | nil => simp [sortSlice]
  | cons a l ih =>
    simp only [List.map_cons, List.nodup_cons] at hl
    have ih' := ih hl.2
    unfold sortSlice at ih' ⊢
    rw [List.insertionSort]
    apply orderedInsert_strict key a _ ih'
    intro b hb hkey
    have hb' : b ∈ l := (List.perm_insertionSort _ l).mem_iff.1 hb
    exact hl.1 (hkey ▸ List.mem_map_of_mem key hb')

end Sorting

theorem Store.targets_ids_nodup {s : Store} (hs : Inv s) :
    ((s.targets.entries.map Prod.snd).map (fun t => t.ID)).Nodup := by
  have h : (s.targets.entries.map Prod.snd).map (fun t => t.ID)
      = s.targets.entries.map Prod.fst := by
    rw [List.map_map]
    apply List.map_congr_left
    intro e he
    exact hs.keyID e he
  rw [h]
  exact s.targets.nodup

theorem map_sortSlice {α β : Type} (key : β → String) (f : α → β) (l : List α) :
    (sortSlice (fun a => key (f a)) l).map f = sortSlice key (l.map f) :=
  List.map_insertionSort _ _ f l (fun _ _ _ _ => Iff.rfl)

theorem Store.Status_map_Target (s : Store) :
    s.Status.map (fun st => st.Target) = s.Targets := by
  have h := map_sortSlice (fun t : Target => t.ID) (fun st : TargetStatus => st.Target)
    (s.targets.entries.map (fun e => s.statusOf e.1 e.2))
  rw [List.map_map] at h
  exact h

/-- C13: in every reachable state `Targets` lists exactly the current target definitions,
one per known id, in strictly ascending order of id, and `Status` lists one status per
known target, computed from the current definition of that target, in the same order. -/
theorem listings_sorted (s : Store) (hs : Reachable s) :
    (s.Targets.Pairwise (fun a b => a.ID < b.ID)) ∧
      (∀ t : Target, t ∈ s.Targets ↔ s.targets.get? t.ID = some t) ∧
      (∀ id, (s.targets.get? id).isSome ↔ ∃ t : Target, t ∈ s.Targets ∧ t.ID = id) ∧
      s.Targets.length = s.targets.entries.length ∧
      s.Status.map (fun st => st.Target) = s.Targets ∧
      (∀ st ∈ s.Status, st = s.statusOf st.Target.ID st.Target) ∧
      s.Status.Pairwise (fun a b => a.Target.ID < b.Target.ID) := by
  have hinv := hs.inv
  have hsorted : s.Targets.Pairwise (fun a b => a.ID < b.ID) :=
    sortSlice_strict (fun t : Target => t.ID) _ (Store.targets_ids_nodup hinv)
  have hmem : ∀ t : Target, t ∈ s.Targets ↔ s.targets.get? t.ID = some t := by
    intro t
    rw [Store.mem_Targets]
    constructor
    · rintro ⟨id, hid⟩
      rw [hinv.id_of_get? hid]
      exact hid
    · intro h
      exact ⟨t.ID, h⟩
  refine ⟨hsorted, hmem, ?_, ?_, Store.Status_map_Target s, ?_, ?_⟩
  · intro id
    constructor
    · intro h
      obtain ⟨t, ht⟩ := Option.isSome_iff_exists.1 h
      have hid := hinv.id_of_get? ht
      exact ⟨t, (hmem t).2 (by rw [hid]; exact ht), hid⟩
    · rintro ⟨t, ht, rfl⟩
      rw [(hmem t).1 ht]
      rfl
  · unfold Store.Targets sortSlice
    rw [List.length_insertionSort, List.length_map]
  · intro st hst
    obtain ⟨id, t, ht, rfl⟩ := (Store.mem_Status s st).1 hst
    have hid : t.ID = id := hinv.id_of_get? ht
    simp [hid]
  · have h := Store.Status_map_Target s
    rw [← h] at hsorted
    have h2 := List.pairwise_map.1 hsorted
    exact h2

/-- Witness of C13: a store built from `svc2` and `svc1`, in that order. -/
theorem listings_sorted_witness :
    Reachable ((New [svc2, svc1]).Update (okAt "svc1" 3)) ∧
      ((New [svc2, svc1]).Update (okAt "svc1" 3)).Targets = [svc1, svc2] ∧
      ((New [svc2, svc1]).Update (okAt "svc1" 3)).Targets.Pairwise (fun a b => a.ID < b.ID) :=
  ⟨Reachable.update _ (Reachable.init _), by decide,
    (listings_sorted _ (Reachable.update _ (Reachable.init _))).1⟩

/-! ## Loops and target definitions -/

theorem Store.known_iff_mem_Targets {s : Store} (hs : Inv s) (id : String) :
    (s.targets.get? id).isSome ↔ ∃ t : Target, t ∈ s.Targets ∧ t.ID = id := by
  constructor
  · intro h
    obtain ⟨t, ht⟩ := Option.isSome_iff_exists.1 h
    exact ⟨t, (s.mem_Targets t).2 ⟨id, ht⟩, hs.id_of_get? ht⟩
  · rintro ⟨t, ht, rfl⟩
    obtain ⟨id', hid'⟩ := (s.mem_Targets t).1 ht
    have : t.ID = id' := hs.id_of_get? hid'
    rw [this, hid']
    rfl

theorem Scheduler.UpsertTarget_started (s : Scheduler) (t : Target) :
    (s.UpsertTarget t).started = s.started := by
  unfold Scheduler.UpsertTarget
  simp only
  split
  · exact Scheduler.cancelWorker_started s _
  · exact Scheduler.cancelWorker_started s _

theorem Scheduler.UpsertTarget_workers (s : Scheduler) (t : Target) (hst : s.started = true)
    (id : String) :
    ((s.UpsertTarget t).workers.get? id).isSome ↔ id = t.ID ∨ (s.workers.get? id).isSome := by
  have hc : (s.cancelWorker t.ID).started = true := by
    rw [Scheduler.cancelWorker_started]; exact hst
  unfold Scheduler.UpsertTarget
  simp only [hc, Bool.true_eq_false, if_false]
  by_cases hid : id = t.ID
  · subst hid
    simp [Scheduler.spawnWorkerLocked]
  · simp only [Scheduler.spawnWorkerLocked, GoMap.get?_set_ne _ _ hid,
      Scheduler.cancelWorker_workers_ne s hid, hid, false_or]

theorem Scheduler.RemoveTarget_workers (s : Scheduler) (k id : String) :
    ((s.RemoveTarget k).workers.get? id).isSome ↔ id ≠ k ∧ (s.workers.get? id).isSome := by
  unfold Scheduler.RemoveTarget
  by_cases hid : id = k
  · subst hid
    simp [Scheduler.cancelWorker_workers_self]
  · simp [Scheduler.cancelWorker_workers_ne s hid, hid]

theorem Scheduler.foldl_UpsertTarget_workers (ts : List Target) (s : Scheduler)
    (hst : s.started = true) (id : String) :
    ((ts.foldl Scheduler.UpsertTarget s).started = true) ∧
      (((ts.foldl Scheduler.UpsertTarget s).workers.get? id).isSome ↔
        (∃ t : Target, t ∈ ts ∧ t.ID = id) ∨ (s.workers.get? id).isSome) := by
  induction ts generalizing s with
  | nil => simp [hst]
  | cons t ts ih =>
    have hst' : (s.UpsertTarget t).started = true := by
      rw [Scheduler.UpsertTarget_started]; exact hst
    obtain ⟨h1, h2⟩ := ih (s.UpsertTarget t) hst'
    refine ⟨h1, ?_⟩
    rw [List.foldl_cons, h2, Scheduler.UpsertTarget_workers s t hst]
    constructor
    · rintro (⟨x, hx, rfl⟩ | rfl | h)
      · exact Or.inl ⟨x, List.mem_cons_of_mem t hx, rfl⟩
      · exact Or.inl ⟨t, List.mem_cons_self t ts, rfl⟩
      · exact Or.inr h
    · rintro (⟨x, hx, rfl⟩ | h)
      · rcases List.mem_cons.1 hx with rfl | hx
        · exact Or.inr (Or.inl rfl)
        · exact Or.inl ⟨x, hx, rfl⟩
      · exact Or.inr (Or.inr h)

theorem Scheduler.Trigger_frame (s : Scheduler) (id : String) :
    (s.Trigger id).2.workers = s.workers ∧ (s.Trigger id).2.started = s.started := by
  unfold Scheduler.Trigger
  cases s.workers.get? id <;> exact ⟨rfl, rfl⟩

theorem Store.UpsertTarget_known (s : Store) (t : Target) (id : String) :
    ((s.UpsertTarget t).targets.get? id).isSome ↔ id = t.ID ∨ (s.targets.get? id).isSome := by
  by_cases hid : id = t.ID
  · subst hid
    simp
  · simp [GoMap.get?_set_ne _ _ hid, hid]

theorem Store.RemoveTarget_known (s : Store) (k id : String) :
    ((s.RemoveTarget k).targets.get? id).isSome ↔ id ≠ k ∧ (s.targets.get? id).isSome := by
  by_cases hid : id = k
  · subst hid
    simp [Store.RemoveTarget]
  · simp [Store.RemoveTarget, GoMap.get?_delete_ne _ hid, hid]

/-- Before `Start` no administrative call, trigger or probe makes the scheduler register
a loop. -/
theorem TargetService.apply_idle (s : TargetService) (op : AdminOp)
    (hst : s.scheduler.started = false) (hw : s.scheduler.workers.entries = []) :
    (s.apply op).scheduler.started = false ∧ (s.apply op).scheduler.workers.entries = [] := by
  have hnone : ∀ id, s.scheduler.workers.get? id = none := by
    intro id
    simp [GoMap.get?, hw, lookupList]
  have hcancel : ∀ id, s.scheduler.cancelWorker id = s.scheduler := by
    intro id
    unfold Scheduler.cancelWorker
    rw [hnone id]
  have hupsert : ∀ t, s.scheduler.UpsertTarget t = s.scheduler := by
    intro t
    unfold Scheduler.UpsertTarget
    simp [hcancel, hst]
  cases op with
  | create target uuid repoErr =>
    simp only [TargetService.apply, TargetService.CreateTarget]
    split
    · exact ⟨hst, hw⟩
    · split
      · exact ⟨hst, hw⟩
      · simp only [hupsert]
        exact ⟨hst, hw⟩
  | update target repoErr =>
    simp only [TargetService.apply, TargetService.UpdateTarget]
    split
    · exact ⟨hst, hw⟩
    · split
      · exact ⟨hst, hw⟩
      · split
        · exact ⟨hst, hw⟩
        · simp only [hupsert]
          exact ⟨hst, hw⟩
  | delete id repoErr =>
    simp only [TargetService.apply, TargetService.DeleteTarget]
    split
    · exact ⟨hst, hw⟩
    · split
      · exact ⟨hst, hw⟩
      · simp only [Scheduler.RemoveTarget, hcancel]
        exact ⟨hst, hw⟩
  | trigger id =>
    simp only [TargetService.apply, TargetService.Trigger, Scheduler.Trigger, hnone]
    exact ⟨hst, hw⟩
  | receive k =>
    simp only [TargetService.apply, Scheduler.receiveTrigger]
    split
    · exact ⟨hst, hw⟩
    · split
      · exact ⟨hst, hw⟩
      · exact ⟨hst, hw⟩
  | probe result now => exact ⟨hst, hw⟩

theorem TargetService.apply_store_reachable (s : TargetService) (op : AdminOp)
    (hs : Reachable s.store) : Reachable (s.apply op).store := by
  cases op with
  | create target uuid repoErr =>
    simp only [TargetService.apply, TargetService.CreateTarget]
    split
    · exact hs
    · split
      · exact hs
      · exact Reachable.upsert _ hs
  | update target repoErr =>
    simp only [TargetService.apply, TargetService.UpdateTarget]
    split
    · exact hs
    · split
      · exact hs
      · split
        · exact hs
        · exact Reachable.upsert _ hs
  | delete id repoErr =>
    simp only [TargetService.apply, TargetService.DeleteTarget]
    split
    · exact hs
    · split
      · exact hs
      · exact Reachable.remove _ hs
  | trigger id => exact hs
  | receive k => exact hs
  | probe result now => exact Reachable.update _ hs

/-- From `Start` onwards every event keeps the registered loops in step with the target
definitions of the store. -/
theorem TargetService.apply_match (s : TargetService) (op : AdminOp)
    (hst : s.scheduler.started = true)
    (hm : ∀ id, (s.scheduler.workers.get? id).isSome ↔ (s.store.targets.get? id).isSome) :
    (s.apply op).scheduler.started = true ∧
      ∀ id, ((s.apply op).scheduler.workers.get? id).isSome
        ↔ ((s.apply op).store.targets.get? id).isSome := by
  have hup : ∀ t : Target, (s.scheduler.UpsertTarget t).started = true ∧
      ∀ id, ((s.scheduler.UpsertTarget t).workers.get? id).isSome
        ↔ ((s.store.UpsertTarget t).targets.get? id).isSome := by
    intro t
    refine ⟨by rw [Scheduler.UpsertTarget_started]; exact hst, ?_⟩
    intro id
    rw [Scheduler.UpsertTarget_workers _ _ hst, Store.UpsertTarget_known, hm]
  cases op with
  | create target uuid repoErr =>
    simp only [TargetService.apply, TargetService.CreateTarget]
    split
    · exact ⟨hst, hm⟩
    · split
      · exact ⟨hst, hm⟩
      · exact hup _
  | update target repoErr =>
    simp only [TargetService.apply, TargetService.UpdateTarget]
    split
    · exact ⟨hst, hm⟩
    · split
      · exact ⟨hst, hm⟩
      · split
        · exact ⟨hst, hm⟩
        · exact hup _
  | delete id repoErr =>
    simp only [TargetService.apply, TargetService.DeleteTarget]
    split
    · exact ⟨hst, hm⟩
    · split
      · exact ⟨hst, hm⟩
      · refine ⟨by simp only [Scheduler.RemoveTarget, Scheduler.cancelWorker_started]; exact hst, ?_⟩
        intro id'
        simp only
        rw [Scheduler.RemoveTarget_workers, Store.RemoveTarget_known, hm]
  | trigger id =>
    simp only [TargetService.apply, TargetService.Trigger]
    have h := Scheduler.Trigger_frame s.scheduler id
    exact ⟨by rw [h.2]; exact hst, by intro id'; rw [h.1]; exact hm id'⟩
  | receive k =>
    simp only [TargetService.apply, Scheduler.receiveTrigger]
    split
    · exact ⟨hst, hm⟩
    · split
      · exact ⟨hst, hm⟩
      · exact ⟨hst, hm⟩
  | probe result now =>
    simp only [TargetService.apply, Scheduler.execute, Store.Update_targets]
    exact ⟨hst, hm⟩


theorem TargetService.run_idle (ops : List AdminOp) (s : TargetService)
    (hst : s.scheduler.started = false) (hw : s.scheduler.workers.entries = []) :
    (s.run ops).scheduler.started = false ∧ (s.run ops).scheduler.workers.entries = [] := by
  induction ops generalizing s with
  | nil => exact ⟨hst, hw⟩
  | cons op ops ih =>
    obtain ⟨h1, h2⟩ := s.apply_idle op hst hw
    exact ih (s.apply op) h1 h2

theorem TargetService.run_store_reachable (ops : List AdminOp) (s : TargetService)
    (hs : Reachable s.store) : Reachable (s.run ops).store := by
  induction ops generalizing s with
  | nil => exact hs
  | cons op ops ih => exact ih (s.apply op) (s.apply_store_reachable op hs)

theorem TargetService.run_match (ops : List AdminOp) (s : TargetService)
    (hst : s.scheduler.started = true)
    (hm : ∀ id, (s.scheduler.workers.get? id).isSome ↔ (s.store.targets.get? id).isSome) :
    (s.run ops).scheduler.started = true ∧
      ∀ id, ((s.run ops).scheduler.workers.get? id).isSome
        ↔ ((s.run ops).store.targets.get? id).isSome := by
  induction ops generalizing s with
  | nil => exact ⟨hst, hm⟩
  | cons op ops ih =>
    obtain ⟨h1, h2⟩ := s.apply_match op hst hm
    exact ih (s.apply op) h1 h2

theorem Reachable.foldl_UpsertTarget (targets : List Target) {s : Store} (hs : Reachable s) :
    Reachable (targets.foldl Store.UpsertTarget s) := by
  induction targets generalizing s with
  | nil => exact hs
  | cons t ts ih => exact ih (Reachable.upsert t hs)

theorem TargetService.Bootstrap_frame (s : TargetService) (listed : Except String (List Target))
    (hs : Reachable s.store) :
    (s.Bootstrap listed).2.scheduler = s.scheduler ∧ Reachable (s.Bootstrap listed).2.store := by
  unfold TargetService.Bootstrap
  cases listed with
  | error e => exact ⟨rfl, hs⟩
  | ok targets => exact ⟨rfl, Reachable.foldl_UpsertTarget targets hs⟩

/-- On a scheduler without loops, `Start` registers a loop for exactly the ids of the
target definitions of the store. -/
theorem TargetService.startScheduler_match (s : TargetService) (hs : Reachable s.store)
    (hw : s.scheduler.workers.entries = []) :
    s.startScheduler.scheduler.started = true ∧ s.startScheduler.store = s.store ∧
      ∀ id, (s.startScheduler.scheduler.workers.get? id).isSome
        ↔ (s.store.targets.get? id).isSome := by
  have hfold := fun id => Scheduler.foldl_UpsertTarget_workers s.store.Targets
    ({ s.scheduler with started := true } : Scheduler) rfl id
  refine ⟨(hfold "").1, rfl, ?_⟩
  intro id
  have h := (hfold id).2
  have hnone : s.scheduler.workers.get? id = none := by
    simp [GoMap.get?, hw, lookupList]
  simp only [hnone, Option.isSome_none, Bool.false_eq_true, or_false] at h
  rw [Store.known_iff_mem_Targets hs.inv id]
  exact h

/-- C17: start from a reachable store and a new scheduler and call `Bootstrap`.  After
any events `pre` (administrative calls with any answers of the repository, triggers,
probes) the scheduler is not started and has no registered loop; once `Start` is called,
after any further events `post` the ids with a registered loop are exactly the ids of the
target definitions of the store. -/
theorem loops_match_store (store : Store) (hstore : Reachable store)
    (listed : Except String (List Target)) (pre post : List AdminOp) :
    ((TargetService.beforeStart store listed pre).scheduler.started = false ∧
        (TargetService.beforeStart store listed pre).scheduler.workers.entries = []) ∧
      (TargetService.afterStart store listed pre post).scheduler.started = true ∧
      ∀ id, ((TargetService.afterStart store listed pre post).scheduler.workers.get? id).isSome
        ↔ ((TargetService.afterStart store listed pre post).store.targets.get? id).isSome := by
  obtain ⟨hb1, hb2⟩ := (TargetService.fresh store).Bootstrap_frame listed hstore
  have hidle := TargetService.run_idle pre ((TargetService.fresh store).Bootstrap listed).2
    (by rw [hb1]; rfl) (by rw [hb1]; rfl)
  have hreach := TargetService.run_store_reachable pre
    ((TargetService.fresh store).Bootstrap listed).2 hb2
  obtain ⟨hs1, hs2, hs3⟩ := TargetService.startScheduler_match _ hreach hidle.2
  refine ⟨hidle, ?_⟩
  apply TargetService.run_match post _ hs1
  intro id
  rw [hs3 id, hs2]

/-- Witness of C17: one target is bootstrapped and one created before `Start`, one is
deleted afterwards and an update fails in the repository. -/
theorem loops_match_store_witness :
    Reachable (New []) ∧
      (TargetService.afterStart (New []) (Except.ok [svc1]) [AdminOp.create svc2 "u1" none]
          [AdminOp.delete "svc1" none, AdminOp.update svc2 (some "db")]).scheduler.started
        = true ∧
      ∀ id, ((TargetService.afterStart (New []) (Except.ok [svc1])
            [AdminOp.create svc2 "u1" none]
            [AdminOp.delete "svc1" none,
              AdminOp.update svc2 (some "db")]).scheduler.workers.get? id).isSome
          ↔ ((TargetService.afterStart (New []) (Except.ok [svc1])
            [AdminOp.create svc2 "u1" none]
            [AdminOp.delete "svc1" none,
              AdminOp.update svc2 (some "db")]).store.targets.get? id).isSome :=
  ⟨Reachable.init [],
    (loops_match_store (New []) (Reachable.init []) (Except.ok [svc1])
      [AdminOp.create svc2 "u1" none]
      [AdminOp.delete "svc1" none, AdminOp.update svc2 (some "db")]).2⟩

/-! ## Further witnesses -/

/-- Witness of C11: three results are retained for `svc1` and two are asked for. -/
theorem history_limit_witness :
    (([okAt "svc1" 1, failAt "svc1" 2, okAt "svc1" 3].foldl Store.Update
        (New [svc1])).targets.get? "svc1").isSome ∧
      ([okAt "svc1" 1, failAt "svc1" 2, okAt "svc1" 3].foldl Store.Update
        (New [svc1])).History "svc1" 2 = Except.ok [okAt "svc1" 3, failAt "svc1" 2] :=
  ⟨by decide,
    history_limit ([okAt "svc1" 1, failAt "svc1" 2, okAt "svc1" 3].foldl Store.Update
      (New [svc1])) "svc1" 2 (by decide)⟩

/-- Witness of C19: a target without name is submitted to a service that knows `svc1`. -/
theorem rejected_mutation_changes_nothing_witness :
    validateTarget { svc2 with Name := "" } = some "nombre requerido" ∧
      ((TargetService.fresh (New [svc1])).CreateTarget { svc2 with Name := "" } "u1" none
        = (Except.error "nombre requerido", TargetService.fresh (New [svc1]))) ∧
      (TargetService.fresh (New [svc1])).DeleteTarget "" none
        = (some "id requerido", TargetService.fresh (New [svc1])) :=
  ⟨by decide,
    (rejected_mutation_changes_nothing (TargetService.fresh (New [svc1]))
      { svc2 with Name := "" } "u1" none "db" "svc1").1 "nombre requerido" (by decide),
    (rejected_mutation_changes_nothing (TargetService.fresh (New [svc1]))
      { svc2 with Name := "" } "u1" none "db" "svc1").2.2.2.1⟩

/-! ## The order of the calls of the service -/

/-- Counterexample to C21: a `DeleteTarget` that succeeds calls `RemoveTarget` of the
scheduler before `RemoveTarget` of the store. -/
theorem delete_order_counterexample :
    (((TargetService.fresh (New [svc1])).startScheduler.DeleteTarget "svc1" none).1 = none) ∧
      ((TargetService.fresh (New [svc1])).startScheduler.DeleteTarget "svc1" none).2.calls
        = [Call.repoDelete "svc1", Call.schedulerRemove "svc1", Call.storeRemove "svc1"] := by
  decide

/-- C21, amended: a `CreateTarget` and an `UpdateTarget` that succeed call the
repository, then `UpsertTarget` of the store, then `UpsertTarget` of the scheduler; a
`DeleteTarget` that succeeds calls the repository, then `RemoveTarget` of the scheduler,
then `RemoveTarget` of the store. -/
theorem mutation_call_order (s : TargetService) (target : Target) (uuid id : String)
    (hvalid : validateTarget target = none) (hid : id ≠ "") :
    ((s.CreateTarget target uuid none).1
          = Except.ok (if target.ID = "" then { target with ID := uuid } else target) ∧
        (s.CreateTarget target uuid none).2.calls
          = s.calls ++ [Call.repoCreate (if target.ID = "" then { target with ID := uuid }
              else target),
            Call.storeUpsert (if target.ID = "" then { target with ID := uuid } else target),
            Call.schedulerUpsert (if target.ID = "" then { target with ID := uuid }
              else target)]) ∧
      (target.ID ≠ "" → (s.UpdateTarget target none).1 = Except.ok target ∧
        (s.UpdateTarget target none).2.calls
          = s.calls ++ [Call.repoUpdate target, Call.storeUpsert target,
            Call.schedulerUpsert target]) ∧
      ((s.DeleteTarget id none).1 = none ∧
        (s.DeleteTarget id none).2.calls
          = s.calls ++ [Call.repoDelete id, Call.schedulerRemove id, Call.storeRemove id]) := by
  have hv : validateTarget (if target.ID = "" then { target with ID := uuid } else target)
      = none := by
    split
    · exact (validateTarget_ID target uuid).trans hvalid
    · exact hvalid
  refine ⟨?_, ?_, ?_⟩
  · simp [TargetService.CreateTarget, hv]
  · intro hne
    simp [TargetService.UpdateTarget, hne, hvalid]
  · simp [TargetService.DeleteTarget, hid]

/-- Witness of the amended C21: `svc2` is created and `svc1` deleted. -/
theorem mutation_call_order_witness :
    validateTarget svc2 = none ∧
      ((TargetService.fresh (New [svc1])).CreateTarget svc2 "u1" none).2.calls
        = [Call.repoCreate svc2, Call.storeUpsert svc2, Call.schedulerUpsert svc2] ∧
      ((TargetService.fresh (New [svc1])).DeleteTarget "svc1" none).2.calls
        = [Call.repoDelete "svc1", Call.schedulerRemove "svc1", Call.storeRemove "svc1"] :=
  ⟨by decide,
    (mutation_call_order (TargetService.fresh (New [svc1])) svc2 "u1" "svc1" (by decide)
      (by decide)).1.2,
    (mutation_call_order (TargetService.fresh (New [svc1])) svc2 "u1" "svc1" (by decide)
      (by decide)).2.2.2⟩

/-! ## The frame of `Update` -/

/-- C23: in every state `Update r` leaves the target definitions as they are and, for
every id other than `r.TargetID`, the last result, the history and the failure counter, so
that `History` and the status computed for such an id are unchanged; where every
definition is stored under its own id, as in every state a store can reach, `Status` has
the same entries for the targets other than `r.TargetID` before and after. -/
theorem update_frame (s : Store) (r : CheckResult) :
    (s.Update r).targets = s.targets ∧ (s.Update r).Targets = s.Targets ∧
      (∀ id, id ≠ r.TargetID →
        (s.Update r).last.get? id = s.last.get? id ∧
        (s.Update r).history.get? id = s.history.get? id ∧
        (s.Update r).failures.get? id = s.failures.get? id ∧
        (∀ limit, (s.Update r).History id limit = s.History id limit) ∧
        (∀ t, (s.Update r).statusOf id t = s.statusOf id t)) ∧
      ((∀ e ∈ s.targets.entries, e.2.ID = e.1) →
        ∀ st : TargetStatus, st.Target.ID ≠ r.TargetID →
          (st ∈ (s.Update r).Status ↔ st ∈ s.Status)) := by
  refine ⟨rfl, rfl, ?_, ?_⟩
  · intro id hid
    exact ⟨Store.Update_last_ne s r hid, Store.Update_history_ne s r hid,
      Store.Update_failures_ne s r hid, Store.History_Update_ne s r hid,
      Store.statusOf_Update_ne s r hid⟩
  · intro hkey st hst
    rw [Store.mem_Status, Store.mem_Status, Store.Update_targets]
    constructor
    · rintro ⟨id, t, ht, rfl⟩
      have hid : t.ID = id := hkey (id, t) ((GoMap.mem_entries_iff _ _ _).2 ht)
      have hne : id ≠ r.TargetID := by
        rw [← hid]; exact hst
      exact ⟨id, t, ht, Store.statusOf_Update_ne s r hne t⟩
    · rintro ⟨id, t, ht, rfl⟩
      have hid : t.ID = id := hkey (id, t) ((GoMap.mem_entries_iff _ _ _).2 ht)
      have hne : id ≠ r.TargetID := by
        rw [← hid]; exact hst
      exact ⟨id, t, ht, (Store.statusOf_Update_ne s r hne t).symm⟩

/-- Witness of C23: a result for `svc1` in a store that also knows `svc2`. -/
theorem update_frame_witness :
    (∀ e ∈ (New [svc1, svc2]).targets.entries, e.2.ID = e.1) ∧
      (∀ st : TargetStatus, st.Target.ID ≠ "svc1" →
        (st ∈ ((New [svc1, svc2]).Update (failAt "svc1" 3)).Status
          ↔ st ∈ (New [svc1, svc2]).Status)) :=
  ⟨by decide, (update_frame (New [svc1, svc2]) (failAt "svc1" 3)).2.2.2 (by decide)⟩

/-! ## The last result, the history and the failure streak agree -/

theorem streak_New (targets : List Target) : Streak 0 (New targets) where
  range := by intro id v hv; simp [New] at hv
  zero := by intro id; simp [New]

theorem streak_step {n : Nat} {s : Store} (hs : Streak n s) (hn : (n : Int) + 1 < 2 ^ 63)
    (op : Op) : Streak (n + 1) (s.step op) := by
  cases op with
  | upsert t =>
    refine ⟨?_, hs.zero⟩
    intro id v hv
    have := hs.range id v hv
    push_cast
    omega
  | remove k =>
    refine ⟨?_, ?_⟩
    · intro id v hv
      by_cases hid : id = k
      · subst hid
        simp [Store.step, Store.RemoveTarget] at hv
      · simp only [Store.step, Store.RemoveTarget, GoMap.get?_delete_ne _ hid] at hv
        have := hs.range id v hv
        push_cast
        omega
    · intro id
      by_cases hid : id = k
      · subst hid
        simp [Store.step, Store.RemoveTarget]
      · simp only [Store.step, Store.RemoveTarget, GoMap.get?_delete_ne _ hid]
        exact hs.zero id
  | update r =>
    have hprev : 0 ≤ (s.failures.get? r.TargetID).getD 0 ∧
        (s.failures.get? r.TargetID).getD 0 ≤ (n : Int) := by
      cases hf : s.failures.get? r.TargetID with
      | none => simp
      | some v => simpa using hs.range _ v hf
    have hwrap : wrapInt ((s.failures.get? r.TargetID).getD 0 + 1)
        = (s.failures.get? r.TargetID).getD 0 + 1 :=
      wrapInt_of_range (by omega) (by omega)
    refine ⟨?_, ?_⟩
    · intro id v hv
      by_cases hid : id = r.TargetID
      · subst hid
        simp only [Store.step] at hv
        rw [Store.Update_failures_self, hwrap] at hv
        cases hv
        push_cast
        split
        · omega
        · omega
      · simp only [Store.step] at hv
        rw [Store.Update_failures_ne s r hid] at hv
        have := hs.range id v hv
        push_cast
        omega
    · intro id
      by_cases hid : id = r.TargetID
      · subst hid
        simp only [Store.step]
        rw [Store.Update_failures_self, Store.Update_last_self, hwrap]
        by_cases hsucc : r.Success
        · simp [hsucc]
        · simp only [hsucc, Bool.false_eq_true, if_false, Option.getD_some, reduceCtorEq,
            Option.some.injEq, false_or]
          constructor
          · intro h
            omega
          · rintro ⟨x, rfl, hx⟩
            exact absurd hx hsucc
      · simp only [Store.step]
        rw [Store.Update_failures_ne s r hid, Store.Update_last_ne s r hid]
        exact hs.zero id

theorem streak_of_run (targets : List Target) (ops : List Op)
    (hlen : (ops.length : Int) < 2 ^ 63) : Streak ops.length ((New targets).run ops) := by
  induction ops using List.reverseRecOn with
  | nil => exact streak_New targets
  | append_singleton ops op ih =>
    have hlen' : (ops.length : Int) + 1 < 2 ^ 63 := by simpa using hlen
    have h := streak_step (ih (by omega)) hlen' op
    simpa [Store.run, List.foldl_append] using h

theorem Reachable.of_run (targets : List Target) (ops : List Op) :
    Reachable ((New targets).run ops) :=
  (Reachable.init targets).run ops

/-- C22: in every state reached from `New` by fewer than `2 ^ 63` calls of
`UpsertTarget`, `RemoveTarget` and `Update` (so that no `int` counter has wrapped), for
every id the last result is stored exactly when the history of the id is not empty and is
then its first entry, and the failure counter is 0 exactly when there is no last result
or the last result is a success; every entry of `Status` is computed from these: its
uptime from the history, its counter from the failure counter, its `LastCheck` from the
last result, and a reported `LastCheck` is the newest history entry and is a success
exactly when the reported counter is 0. -/
theorem status_consistent (s : Store) (targets : List Target) (ops : List Op)
    (hs : s = (New targets).run ops) (hlen : (ops.length : Int) < 2 ^ 63) (id : String) :
    (s.last.get? id = ((s.history.get? id).getD []).head?) ∧
      ((s.last.get? id).isSome ↔ (s.history.get? id).getD [] ≠ []) ∧
      ((s.failures.get? id).getD 0 = 0 ↔
        (s.last.get? id = none ∨ ∃ r, s.last.get? id = some r ∧ r.Success = true)) ∧
      (∀ st ∈ s.Status, st.Target.ID = id →
        st.UptimePerc = calculateUptime ((s.history.get? id).getD []) ∧
        st.ConsecutiveFailures = (s.failures.get? id).getD 0 ∧
        st.LastCheck = (s.last.get? id).filter (fun x => decide (x.CheckedAt ≠ 0)) ∧
        ∀ r, st.LastCheck = some r →
          ((s.history.get? id).getD []).head? = some r ∧
          (st.ConsecutiveFailures = 0 ↔ r.Success = true)) := by
  subst hs
  have hinv := (Reachable.of_run targets ops).inv
  have hstreak := streak_of_run targets ops hlen
  have hhead := hinv.lastHead id
  refine ⟨hhead, ?_, hstreak.zero id, ?_⟩
  · rw [hhead]
    cases ((New targets).run ops).history.get? id |>.getD [] with
    | nil => simp
    | cons x l => simp
  · intro st hst hid
    obtain ⟨id', t, ht, rfl⟩ := (Store.mem_Status _ st).1 hst
    have h1 : t.ID = id' := hinv.id_of_get? ht
    have h2 : id' = id := by rw [← h1]; exact hid
    subst h2
    have hlast : (((New targets).run ops).statusOf id' t).LastCheck
        = (((New targets).run ops).last.get? id').filter (fun x => decide (x.CheckedAt ≠ 0)) := by
      rw [Store.statusOf_LastCheck _ hinv, hhead]
    refine ⟨rfl, rfl, hlast, ?_⟩
    intro r hr
    rw [hlast] at hr
    have hsome : ((New targets).run ops).last.get? id' = some r := by
      cases hl : ((New targets).run ops).last.get? id' with
      | none => simp [hl] at hr
      | some x =>
        rw [hl] at hr
        simp only [Option.filter] at hr
        split at hr
        · exact hr
        · cases hr
    refine ⟨by rw [← hhead]; exact hsome, ?_⟩
    show ((((New targets).run ops).failures.get? id').getD 0 = 0 ↔ r.Success = true)
    rw [hstreak.zero id', hsome]
    simp

/-- Witness of C22: a success and a failure are recorded for `svc1`. -/
theorem status_consistent_witness :
    (([Op.update (okAt "svc1" 1), Op.update (failAt "svc1" 2), Op.upsert svc2].length : Int)
        < 2 ^ 63) ∧
      ((New [svc1]).run [Op.update (okAt "svc1" 1), Op.update (failAt "svc1" 2),
          Op.upsert svc2]).last.get? "svc1"
        = ((((New [svc1]).run [Op.update (okAt "svc1" 1), Op.update (failAt "svc1" 2),
          Op.upsert svc2]).history.get? "svc1").getD []).head? ∧
      ((((New [svc1]).run [Op.update (okAt "svc1" 1), Op.update (failAt "svc1" 2),
          Op.upsert svc2]).failures.get? "svc1").getD 0 = 0 ↔
        (((New [svc1]).run [Op.update (okAt "svc1" 1), Op.update (failAt "svc1" 2),
          Op.upsert svc2]).last.get? "svc1" = none ∨
          ∃ r, ((New [svc1]).run [Op.update (okAt "svc1" 1), Op.update (failAt "svc1" 2),
            Op.upsert svc2]).last.get? "svc1" = some r ∧ r.Success = true)) :=
  ⟨by norm_num,
    (status_consistent _ [svc1] [Op.update (okAt "svc1" 1), Op.update (failAt "svc1" 2),
      Op.upsert svc2] rfl (by norm_num) "svc1").1,
    (status_consistent _ [svc1] [Op.update (okAt "svc1" 1), Op.update (failAt "svc1" 2),
      Op.upsert svc2] rfl (by norm_num) "svc1").2.2.1⟩

/-! ## The zero value of the store -/

/-- C24 fails on the code: on the zero value `Store{}`, `UpsertTarget` makes the maps
`targets`, `history` and `failures` and leaves `last` `nil`, and the `Update` that follows
panics at its first statement, the assignment to `s.last`. -/
theorem zero_store_update_panics :
    (RawStore.zero.UpsertTarget svc1).targets ≠ none ∧
      (RawStore.zero.UpsertTarget svc1).history ≠ none ∧
      (RawStore.zero.UpsertTarget svc1).failures ≠ none ∧
      (RawStore.zero.UpsertTarget svc1).last = none ∧
      (RawStore.zero.UpsertTarget svc1).Update (okAt "svc1" 1) = none := by
  decide

/-- On a store with four maps the two methods do what they do in the model without `nil`
maps, and `Update` does not panic. -/
theorem RawStore.ofStore_refines (s : Store) (target : Target) (result : CheckResult) :
    (RawStore.ofStore s).UpsertTarget target = RawStore.ofStore (s.UpsertTarget target) ∧
      (RawStore.ofStore s).Update result = some (RawStore.ofStore (s.Update result)) := by
  constructor
  · unfold RawStore.UpsertTarget RawStore.ofStore Store.UpsertTarget
    simp only
    cases s.history.get? target.ID <;> rfl
  · unfold RawStore.Update RawStore.ofStore Store.Update
    simp only [writeMap, readMap]
    by_cases h : result.Success <;> simp [h]

end UptimeWatcher
